import Mathlib

/-!
Verification development for an ISAP (improved shortest augmenting path)
maximum-flow implementation together with a lower/upper-bounded feasible-flow
reduction.  The executable definitions below are a shallow embedding of the
C++ sources (`isap.h`, `isap.cc`, `isap_feasible_flow.cc`): machine `int`
values are modelled as `Int`, `std::vector` as `List`, and the two `while`
loops (the BFS queue loop and the main augmenting loop) as fuel-indexed
recursions.  Out-of-range accesses to the `gap` vector (which are undefined
behaviour in C++) are modelled as no-ops, and every `gap` index touched by the
main loop is additionally recorded in a ghost field `gapAcc` so that theorems
can speak about in-bounds behaviour.
-/

namespace IsapModel

/-- The `INF` sentinel from `isap.h` (`const int INF = 1e9`). -/
def INF : Int := 1000000000

/-- Edge record, as in `isap.h`: destination, capacity, current flow, and the
index of the paired reverse edge inside the destination node's list. -/
structure Edge where
  «to» : Nat
  cap : Int
  flow : Int
  rev : Nat
deriving DecidableEq, Repr

/-- Default edge used for out-of-range lookups. -/
def dEdge : Edge := ⟨0, 0, 0, 0⟩

/-- The adjacency list of node `u` (`adj[u]`). -/
def adjAt (adj : List (List Edge)) (u : Nat) : List Edge := adj.getD u []

/-- `l[i]` on an edge list. -/
def nthE (l : List Edge) (i : Nat) : Edge := l.getD i dEdge

/-- `level[v]` lookup. -/
def levelAt (lv : List Int) (v : Nat) : Int := lv.getD v 0

/-- `cur[v]` lookup. -/
def curAt (c : List Nat) (v : Nat) : Nat := c.getD v 0

/-- Read `gap[i]` where `i` is a C++ `int` index; an out-of-range access
(undefined behaviour in C++) is modelled as reading `0`. -/
def getG (g : List Int) (i : Int) : Int :=
  if 0 ≤ i then g.getD i.toNat 0 else 0

/-- Write `gap[i] = x`; an out-of-range access is modelled as a no-op. -/
def setG (g : List Int) (i x : Int) : List Int :=
  if 0 ≤ i then g.set i.toNat x else g

/-- `Isap::add_edge(u, v, cap)`: push the forward record onto `adj[u]` and the
paired zero-capacity reverse record onto `adj[v]`, each storing the other's
position (the second `rev` is `adj[u].size() - 1`, read after the first push,
exactly as in the C++). -/
def add_edge (adj : List (List Edge)) (u v : Nat) (cap : Int) :
    List (List Edge) :=
  let lv := adjAt adj v
  let adj1 := adj.set u (adjAt adj u ++ [⟨v, cap, 0, lv.length⟩])
  adj1.set v (adjAt adj1 v ++ [⟨u, 0, 0, (adjAt adj1 u).length - 1⟩])

/-- Build a graph from `Isap graph(n); graph.add_edge ...` calls. -/
def buildAdj (n : Nat) (es : List (Nat × Nat × Int)) : List (List Edge) :=
  es.foldl (fun adj e => add_edge adj e.1 e.2.1 e.2.2) (List.replicate n [])

/-! ### The BFS labelling phase (`Isap::bfs`) -/

/-- State of the BFS: the `level` and `gap` vectors plus the FIFO queue. -/
structure BfsSt where
  level : List Int
  gap : List Int
  queue : List Nat
deriving Repr

/-- Processing of one dequeued node `u`: for every record `e` of `adj[u]`, if
`e.to` is unlabelled and the paired reverse record `adj[e.to][e.rev]` has
positive residual capacity, label `e.to` with `level[u] + 1`, count it in
`gap`, and enqueue it. -/
def bfsVisit (adj : List (List Edge)) (u : Nat) (st : BfsSt) : BfsSt :=
  (adjAt adj u).foldl (fun st e =>
    let r := nthE (adjAt adj e.to) e.rev
    if levelAt st.level e.to = -1 ∧ r.cap > r.flow then
      { level := st.level.set e.to (levelAt st.level u + 1)
        gap := setG st.gap (levelAt st.level u + 1)
          (getG st.gap (levelAt st.level u + 1) + 1)
        queue := st.queue ++ [e.to] }
    else st) st

/-- The BFS queue loop, fuel-indexed.  Each iteration pops one node. -/
def bfsLoop (adj : List (List Edge)) : Nat → BfsSt → BfsSt
  | 0, st => st
  | Nat.succ fuel, st =>
    match st.queue with
    | [] => st
    | u :: rest => bfsLoop adj fuel (bfsVisit adj u { st with queue := rest })

/-- `Isap::bfs(t)`: reset `level` to `-1` and `gap` to `0`, seed the queue
with `t` at level `0`, and run the queue loop.  Fuel `adj.length` suffices:
every dequeue consumes one enqueue and at most `n` nodes are ever enqueued
(each enqueue labels a previously unlabelled node). -/
def bfsRun (adj : List (List Edge)) (t : Nat) : BfsSt :=
  let n := adj.length
  bfsLoop adj n
    { level := (List.replicate n (-1 : Int)).set t 0
      gap := setG (List.replicate n (0 : Int)) 0 1
      queue := [t] }

/-! ### The main loop (`Isap::isap`) -/

/-- How the computation ended: the early `level[s] == -1` return, the
`while (level[s] < n)` condition failing, or the gap-heuristic `break`. -/
inductive ExitReason where
  | noPath | levelGE | gapZero
deriving DecidableEq, Repr

/-- State of the main loop.  `gapAcc` is a ghost field recording every index
used to read or write the `gap` vector inside the main loop (first the
decremented index `level[u]`, then the incremented index `min_level + 1`). -/
structure MState where
  adj : List (List Edge)
  level : List Int
  gap : List Int
  cur : List Nat
  path : List Nat
  u : Nat
  flow : Int
  gapAcc : List Int
deriving Repr

/-- The admissible-arc scan
`for (; cur[u] < adj[u].size(); cur[u]++)`: starting from position `j` in the
remaining suffix of `adj[u]`, return the absolute index of the first record
with positive residual capacity and `level[u] == level[e.to] + 1`. -/
def scanIdx (level : List Int) (lu : Int) : List Edge → Nat → Option Nat
  | [], _ => none
  | e :: es, j =>
    if e.cap > e.flow ∧ lu = levelAt level e.to + 1 then some j
    else scanIdx level lu es (j + 1)

/-- The relabel minimum: `min_level = n; for e : if residual, min with
`level[e.to]``. -/
def minLevelOf (level : List Int) (es : List Edge) (n : Nat) : Int :=
  es.foldl (fun m e => if e.cap > e.flow then min m (levelAt level e.to) else m)
    (n : Int)

/-- The bottleneck `f = min over the path of (cap - flow)` of each node's
current arc, starting from `INF`. -/
def bottleneck (adj : List (List Edge)) (cur : List Nat) (path : List Nat) :
    Int :=
  path.foldl (fun f p =>
    min f ((nthE (adjAt adj p) (curAt cur p)).cap -
      (nthE (adjAt adj p) (curAt cur p)).flow)) INF

/-- Apply `f` to the record at position `j` of `adj[p]` and `-f` to its stored
partner, sequentially as in the C++ (the partner is read after the first
update, which matters only for self-aliased records). -/
def pushOne (adj : List (List Edge)) (p j : Nat) (f : Int) :
    List (List Edge) :=
  let e := nthE (adjAt adj p) j
  let adj1 := adj.set p ((adjAt adj p).set j { e with flow := e.flow + f })
  let r := nthE (adjAt adj1 e.to) e.rev
  adj1.set e.to ((adjAt adj1 e.to).set e.rev { r with flow := r.flow - f })

/-- Apply the bottleneck along the whole path (each node's current arc). -/
def pushPath (adj : List (List Edge)) (cur : List Nat) (path : List Nat)
    (f : Int) : List (List Edge) :=
  path.foldl (fun a p => pushOne a p (curAt cur p) f) adj

/-- The `u == t` branch: compute the bottleneck, push it along the path, add
it to the total, restart at `s` with an empty path. -/
def augment (s : Nat) (st : MState) : MState :=
  let f := bottleneck st.adj st.cur st.path
  { st with adj := pushPath st.adj st.cur st.path f
            flow := st.flow + f
            u := s
            path := [] }

/-- Result of one iteration of the main `while` loop. -/
inductive StepRes where
  | done (r : ExitReason) (st : MState)
  | cont (st : MState)

/-- One iteration of `while (level[s] < n)`: check the condition; if `u == t`
augment and restart at `s`; then scan for an admissible arc from `cur[u]`;
on failure relabel with the gap bookkeeping (decrement `gap[level[u]]`,
`break` on zero, otherwise `gap[level[u] = min_level + 1]++`, reset `cur[u]`,
and retreat one step along the path). -/
def step (n s t : Nat) (st : MState) : StepRes :=
  if ¬ levelAt st.level s < (n : Int) then .done .levelGE st
  else
    let st := if st.u = t then augment s st else st
    let u := st.u
    let es := adjAt st.adj u
    let c0 := curAt st.cur u
    match scanIdx st.level (levelAt st.level u) (es.drop c0) c0 with
    | some j =>
      .cont { st with cur := st.cur.set u j
                      path := st.path ++ [u]
                      u := (nthE es j).to }
    | none =>
      let st := { st with cur := st.cur.set u es.length }
      let ml := minLevelOf st.level es n
      let lu := levelAt st.level u
      let g := getG st.gap lu - 1
      let st := { st with gap := setG st.gap lu g
                          gapAcc := st.gapAcc ++ [lu] }
      if g = 0 then .done .gapZero st
      else
        let nl := ml + 1
        let st := { st with level := st.level.set u nl
                            gap := setG st.gap nl (getG st.gap nl + 1)
                            gapAcc := st.gapAcc ++ [nl]
                            cur := st.cur.set u 0 }
        .cont { st with u := st.path.getLastD st.u
                        path := st.path.dropLast }

/-- The main loop, fuel-indexed; `none` means the fuel ran out before the
loop ended. -/
def isapLoop (n s t : Nat) : Nat → MState → Option (ExitReason × MState)
  | 0, _ => none
  | Nat.succ fuel, st =>
    match step n s t st with
    | .done r st2 => some (r, st2)
    | .cont st2 => isapLoop n s t fuel st2

/-- The initial main-loop state after the BFS labelling. -/
def initState (adj : List (List Edge)) (s t : Nat) : MState :=
  let n := adj.length
  let b := bfsRun adj t
  { adj := adj, level := b.level, gap := b.gap
    cur := List.replicate n 0, path := [], u := s, flow := 0, gapAcc := [] }

/-- `Isap::isap(s, t)`: run the BFS; return `0` at once (graph untouched) if
`level[s] == -1`; otherwise run the main loop with the given fuel. -/
def isapRun (adj : List (List Edge)) (s t : Nat) (fuel : Nat) :
    Option (ExitReason × MState) :=
  let n := adj.length
  let b := bfsRun adj t
  if levelAt b.level s = -1 then
    some (.noPath,
      { adj := adj, level := b.level, gap := b.gap
        cur := [], path := [], u := s, flow := 0, gapAcc := [] })
  else
    isapLoop n s t fuel (initState adj s t)

/-- The returned flow value, when the loop terminates within the fuel. -/
def isapFlow (adj : List (List Edge)) (s t : Nat) (fuel : Nat) : Option Int :=
  (isapRun adj s t fuel).map (fun r => r.2.flow)

/-! ### The bounded feasible-flow reduction (`isap_feasible_flow.cc`) -/

/-- An edge with lower and upper capacity bounds. -/
structure OriginalEdge where
  u : Nat
  v : Nat
  lower : Int
  upper : Int
deriving DecidableEq, Repr

/-- `demand[v] = sum of lower over edges into v - sum of lower over edges out
of v`, accumulated in edge-list order as in the C++. -/
def computeDemand (n : Nat) (es : List OriginalEdge) : List Int :=
  es.foldl (fun d e =>
    let d1 := d.set e.u (d.getD e.u 0 - e.lower)
    d1.set e.v (d1.getD e.v 0 + e.lower)) (List.replicate n (0 : Int))

/-- The auxiliary graph on `n + 2` nodes (`SS = n`, `TT = n + 1`) together
with `total_positive_demand`: slack edges for `upper - lower > 0`, supersource
and supersink edges for nonzero demands, and the `t → s` edge of capacity
`INF`. -/
def auxGraph (n s t : Nat) (es : List OriginalEdge) :
    List (List Edge) × Int :=
  let SS := n
  let TT := n + 1
  let adj0 : List (List Edge) := List.replicate (n + 2) []
  let adj1 := es.foldl (fun a e =>
    if e.upper - e.lower > 0 then add_edge a e.u e.v (e.upper - e.lower)
    else a) adj0
  let dem := computeDemand n es
  let p := (List.range n).foldl (fun (p : List (List Edge) × Int) i =>
    let d := dem.getD i 0
    if d > 0 then (add_edge p.1 SS i d, p.2 + d)
    else if d < 0 then (add_edge p.1 i TT (-d), p.2)
    else p) (adj1, 0)
  (add_edge p.1 t s INF, p.2)

/-- `has_feasible_flow(n, s, t, edges)`: `false` at once if some edge has
`lower > upper`; otherwise build the auxiliary graph, run the max-flow
computation from `SS` to `TT`, and compare the value with
`total_positive_demand`.  The result is `none` if the fuel is too small for
the max-flow loop. -/
def hasFeasibleFlow (n s t : Nat) (es : List OriginalEdge) (fuel : Nat) :
    Option Bool :=
  if es.any (fun e => e.lower > e.upper) then some false
  else
    let g := auxGraph n s t es
    (isapFlow g.1 n (n + 1) fuel).map (fun mf => mf = g.2)

/-! ### Observation helpers -/

/-- Iterate `k` (non-final) iterations of the main loop, to observe the
intermediate states the loop passes through. -/
def iterSteps (n s t : Nat) : Nat → MState → MState
  | 0, st => st
  | Nat.succ k, st =>
    match step n s t st with
    | .done _ st2 => st2
    | .cont st2 => iterSteps n s t k st2

/-! ### Residual reachability and the mathematical flow notions -/

/-- One residual step: some record of `adj[x]` points to `y` and has positive
residual capacity. -/
def ResStep (adj : List (List Edge)) (x y : Nat) : Prop :=
  ∃ e ∈ adjAt adj x, e.to = y ∧ e.flow < e.cap

/-- Residual reachability: the reflexive-transitive closure of `ResStep`. -/
def ResReach (adj : List (List Edge)) (x y : Nat) : Prop :=
  Relation.ReflTransGen (ResStep adj) x y

/-- Sum of the assigned values of the listed edges leaving `x`. -/
def outSum (es : List (Nat × Nat × Int)) (g : List Int) (x : Nat) : Int :=
  (es.zip g).foldl (fun a p => if p.1.1 = x then a + p.2 else a) 0

/-- Sum of the assigned values of the listed edges entering `x`. -/
def inSum (es : List (Nat × Nat × Int)) (g : List Int) (x : Nat) : Int :=
  (es.zip g).foldl (fun a p => if p.1.2.1 = x then a + p.2 else a) 0

/-- `g` assigns to each edge of `es` a flow respecting `0 ≤ g ≤ cap` and
conserving flow at every node other than `s` and `t`. -/
def IsFlow (n : Nat) (es : List (Nat × Nat × Int)) (s t : Nat)
    (g : List Int) : Prop :=
  g.length = es.length ∧
  (∀ k, k < es.length → 0 ≤ g.getD k 0 ∧ g.getD k 0 ≤ (es.getD k (0, 0, 0)).2.2) ∧
  (∀ x, x < n → x ≠ s → x ≠ t → inSum es g x = outSum es g x)

/-- The value of an assignment: net flow out of `s`. -/
def flowValue (es : List (Nat × Nat × Int)) (g : List Int) (s : Nat) : Int :=
  outSum es g s - inSum es g s

/-- Sums for bounded edges. -/
def bOutSum (es : List OriginalEdge) (g : List Int) (x : Nat) : Int :=
  (es.zip g).foldl (fun a p => if p.1.u = x then a + p.2 else a) 0

/-- Sum for bounded edges entering `x`. -/
def bInSum (es : List OriginalEdge) (g : List Int) (x : Nat) : Int :=
  (es.zip g).foldl (fun a p => if p.1.v = x then a + p.2 else a) 0

/-- A feasible flow for a bounded network exists: an assignment within the
per-edge `lower`/`upper` bounds conserving flow at every node other than `s`
and `t`. -/
def BoundedFeasible (n s t : Nat) (es : List OriginalEdge) : Prop :=
  ∃ g : List Int, g.length = es.length ∧
    (∀ k, k < es.length → (es.getD k ⟨0, 0, 0, 0⟩).lower ≤ g.getD k 0 ∧
      g.getD k 0 ≤ (es.getD k ⟨0, 0, 0, 0⟩).upper) ∧
    (∀ x, x < n → x ≠ s → x ≠ t → bInSum es g x = bOutSum es g x)

/-! ### Structural well-formedness of built graphs -/

/-- Every record's destination is a valid node, its `rev` index is a valid
position in the destination's list, and the record found there points back.
This is the structural fact the BFS soundness argument needs. -/
def SymmStruct (adj : List (List Edge)) : Prop :=
  ∀ x, x < adj.length → ∀ e ∈ adjAt adj x,
    e.to < adj.length ∧ e.rev < (adjAt adj e.to).length ∧
      (nthE (adjAt adj e.to) e.rev).to = x

instance (adj : List (List Edge)) : Decidable (SymmStruct adj) :=
  decidable_of_iff
    (∀ x, x < adj.length → ∀ e ∈ adjAt adj x,
      e.to < adj.length ∧ e.rev < (adjAt adj e.to).length ∧
        (nthE (adjAt adj e.to) e.rev).to = x) Iff.rfl

/-- Reading the position just written. -/
theorem getD_set_self {α : Type*} (l : List α) (i : Nat) (a d : α)
    (h : i < l.length) : (l.set i a).getD i d = a := by
  rw [List.getD_eq_getElem?_getD, List.getElem?_set, if_pos rfl, if_pos h]
  rfl

/-- Reading another position than the one written. -/
theorem getD_set_ne {α : Type*} (l : List α) (i j : Nat) (a d : α)
    (h : i ≠ j) : (l.set i a).getD j d = l.getD j d := by
  rw [List.getD_eq_getElem?_getD, List.getElem?_set, if_neg h,
    ← List.getD_eq_getElem?_getD]

/-- Reading inside a replicated list. -/
theorem getD_replicate_lt {α : Type*} (n j : Nat) (d d' : α) (h : j < n) :
    (List.replicate n d).getD j d' = d := by
  rw [List.getD_eq_getElem?_getD, List.getElem?_replicate, if_pos h]
  rfl

/-- A foldl preserves any invariant its step preserves. -/
theorem foldl_invariant {α β : Type*} (P : β → Prop) (f : β → α → β) :
    ∀ (l : List α) (b : β), P b →
      (∀ x ∈ l, ∀ s, P s → P (f s x)) → P (l.foldl f b)
  | [], _, hb, _ => hb
  | a :: l, b, hb, hf =>
    foldl_invariant P f l (f b a) (hf a (List.mem_cons_self a l) b hb)
      (fun x hx s hs => hf x (List.mem_cons_of_mem a hx) s hs)

/-! ### Pair bookkeeping for built graphs -/

/-- The two positions (forward and reverse record) created by one `add_edge`
call, with the forward capacity. -/
structure PairLoc where
  u : Nat
  i : Nat
  v : Nat
  j : Nat
  cap : Int
deriving DecidableEq, Repr

/-- The forward record of a pair. -/
def fwdE (adj : List (List Edge)) (P : PairLoc) : Edge :=
  nthE (adjAt adj P.u) P.i

/-- The reverse record of a pair. -/
def revE (adj : List (List Edge)) (P : PairLoc) : Edge :=
  nthE (adjAt adj P.v) P.j

/-- The pair locations created by replaying the `add_edge` calls of `es`
(tracking only the row lengths). -/
def pairsOf (n : Nat) (es : List (Nat × Nat × Int)) : List PairLoc :=
  (es.foldl (fun (p : List Nat × List PairLoc) e =>
    let lu := p.1.getD e.1 0
    let lv := p.1.getD e.2.1 0
    let lens1 := p.1.set e.1 (lu + 1)
    let lens2 := lens1.set e.2.1 (lens1.getD e.2.1 0 + 1)
    let j := if e.1 = e.2.1 then lu + 1 else lv
    (lens2, p.2 ++ [⟨e.1, lu, e.2.1, j, e.2.2⟩])) (List.replicate n 0, [])).2

/-- What it means for a pair location to correctly describe two paired
records of `adj`: positions in range, mutual `to`/`rev` pointers, the forward
capacity, capacity `0` on the reverse record.  A self-loop (`u = v`) stores
`rev` pointers exactly as the C++ `add_edge` does: the forward record points
at itself. -/
def PairMem (adj : List (List Edge)) (P : PairLoc) : Prop :=
  P.u < adj.length ∧ P.v < adj.length ∧
  P.i < (adjAt adj P.u).length ∧ P.j < (adjAt adj P.v).length ∧
  (fwdE adj P).to = P.v ∧ (fwdE adj P).cap = P.cap ∧
  (revE adj P).to = P.u ∧ (revE adj P).cap = 0 ∧
  (if P.u = P.v then P.j = P.i + 1 ∧ (fwdE adj P).rev = P.i ∧ (revE adj P).rev = P.i
   else (fwdE adj P).rev = P.j ∧ (revE adj P).rev = P.i)

instance (adj : List (List Edge)) (P : PairLoc) : Decidable (PairMem adj P) := by
  unfold PairMem
  exact inferInstance

/-- All member locations of a pair list. -/
def locsOf (pairs : List PairLoc) : List (Nat × Nat) :=
  pairs.flatMap (fun P => [(P.u, P.i), (P.v, P.j)])

/-- The pair list correctly and completely describes the graph: every pair is
a `PairMem`, no location is used twice, and every in-range location belongs
to some pair. -/
def StructOK (adj : List (List Edge)) (pairs : List PairLoc) : Prop :=
  (∀ P ∈ pairs, PairMem adj P) ∧
  (locsOf pairs).Nodup ∧
  (∀ x, x < adj.length → ∀ idx, idx < (adjAt adj x).length →
    (x, idx) ∈ locsOf pairs)

instance (adj : List (List Edge)) (pairs : List PairLoc) :
    Decidable (StructOK adj pairs) := by
  unfold StructOK
  exact inferInstance

/-- Paired-flow antisymmetry: `forward.flow = -reverse.flow` for every
pair. -/
def Antisym (adj : List (List Edge)) (pairs : List PairLoc) : Prop :=
  ∀ P ∈ pairs, (fwdE adj P).flow = -((revE adj P).flow)

instance (adj : List (List Edge)) (pairs : List PairLoc) :
    Decidable (Antisym adj pairs) := by
  unfold Antisym
  exact inferInstance

/-- Every record has non-negative residual capacity (`flow ≤ cap`). -/
def ResNonneg (adj : List (List Edge)) : Prop :=
  ∀ x, x < adj.length → ∀ e ∈ adjAt adj x, e.flow ≤ e.cap

instance (adj : List (List Edge)) : Decidable (ResNonneg adj) := by
  unfold ResNonneg
  exact inferInstance

/-- Valid `add_edge` arguments: node indices below `n`, capacity
non-negative. -/
def ValidEdges (n : Nat) (es : List (Nat × Nat × Int)) : Prop :=
  ∀ e ∈ es, e.1 < n ∧ e.2.1 < n ∧ 0 ≤ e.2.2

instance (n : Nat) (es : List (Nat × Nat × Int)) :
    Decidable (ValidEdges n es) := by
  unfold ValidEdges
  exact inferInstance

/-- The invariant pack a graph satisfies before and after each max-flow
computation. -/
def GoodGraph (n : Nat) (adj : List (List Edge)) (pairs : List PairLoc) :
    Prop :=
  adj.length = n ∧ StructOK adj pairs ∧ Antisym adj pairs ∧ ResNonneg adj

instance (n : Nat) (adj : List (List Edge)) (pairs : List PairLoc) :
    Decidable (GoodGraph n adj pairs) := by
  unfold GoodGraph
  exact inferInstance

/-! ### Row description of `add_edge` and the build invariant -/

theorem adjAt_set_self (adj : List (List Edge)) (u : Nat) (r : List Edge)
    (h : u < adj.length) : adjAt (adj.set u r) u = r :=
  getD_set_self adj u r [] h

theorem adjAt_set_ne (adj : List (List Edge)) (u x : Nat) (r : List Edge)
    (h : u ≠ x) : adjAt (adj.set u r) x = adjAt adj x :=
  getD_set_ne adj u x r [] h

theorem nthE_append_left (l l' : List Edge) (i : Nat) (h : i < l.length) :
    nthE (l ++ l') i = nthE l i :=
  List.getD_append l l' dEdge i h

theorem nthE_append_at (l : List Edge) (a : Edge) (rest : List Edge) :
    nthE (l ++ a :: rest) l.length = a := by
  rw [nthE, List.getD_append_right _ _ _ _ (le_refl _)]
  simp

theorem nthE_append_at1 (l : List Edge) (a b : Edge) :
    nthE (l ++ [a, b]) (l.length + 1) = b := by
  rw [nthE, List.getD_append_right _ _ _ _ (by omega)]
  have : l.length + 1 - l.length = 1 := by omega
  rw [this]
  rfl

/-- `add_edge` written as two explicit `set` operations. -/
theorem add_edge_def (adj : List (List Edge)) (u v : Nat) (c : Int) :
    add_edge adj u v c =
      (adj.set u (adjAt adj u ++ [⟨v, c, 0, (adjAt adj v).length⟩])).set v
        (adjAt (adj.set u (adjAt adj u ++ [⟨v, c, 0, (adjAt adj v).length⟩])) v ++
          [⟨u, 0, 0,
            (adjAt (adj.set u
              (adjAt adj u ++ [⟨v, c, 0, (adjAt adj v).length⟩])) u).length - 1⟩]) :=
  rfl

theorem add_edge_length (adj : List (List Edge)) (u v : Nat) (c : Int) :
    (add_edge adj u v c).length = adj.length := by
  rw [add_edge_def]
  simp

theorem add_edge_row_other (adj : List (List Edge)) (u v x : Nat) (c : Int)
    (hxu : x ≠ u) (hxv : x ≠ v) :
    adjAt (add_edge adj u v c) x = adjAt adj x := by
  rw [add_edge_def, adjAt_set_ne _ _ _ _ (fun h => hxv h.symm),
    adjAt_set_ne _ _ _ _ (fun h => hxu h.symm)]

theorem add_edge_row_u (adj : List (List Edge)) (u v : Nat) (c : Int)
    (hne : u ≠ v) (hu : u < adj.length) :
    adjAt (add_edge adj u v c) u =
      adjAt adj u ++ [⟨v, c, 0, (adjAt adj v).length⟩] := by
  rw [add_edge_def, adjAt_set_ne _ _ _ _ (fun h => hne h.symm),
    adjAt_set_self _ _ _ hu]

theorem add_edge_row_v (adj : List (List Edge)) (u v : Nat) (c : Int)
    (hne : u ≠ v) (hu : u < adj.length) (hv : v < adj.length) :
    adjAt (add_edge adj u v c) v =
      adjAt adj v ++ [⟨u, 0, 0, (adjAt adj u).length⟩] := by
  rw [add_edge_def, adjAt_set_self _ _ _ (by simpa using hv),
    adjAt_set_ne _ _ _ _ hne, adjAt_set_self _ _ _ hu]
  simp

theorem add_edge_row_self (adj : List (List Edge)) (u : Nat) (c : Int)
    (hu : u < adj.length) :
    adjAt (add_edge adj u u c) u =
      adjAt adj u ++ [⟨u, c, 0, (adjAt adj u).length⟩,
        ⟨u, 0, 0, (adjAt adj u).length⟩] := by
  rw [add_edge_def, adjAt_set_self _ _ _ (by simpa using hu),
    adjAt_set_self _ _ _ hu]
  simp

/-- Membership in the location list of a pair list. -/
theorem mem_locsOf (pairs : List PairLoc) (x idx : Nat) :
    (x, idx) ∈ locsOf pairs ↔
      ∃ P ∈ pairs, (x = P.u ∧ idx = P.i) ∨ (x = P.v ∧ idx = P.j) := by
  rw [locsOf, List.mem_flatMap]
  constructor
  · rintro ⟨P, hP, hmem⟩
    refine ⟨P, hP, ?_⟩
    simp only [List.mem_cons, List.not_mem_nil, or_false, Prod.mk.injEq]
      at hmem
    exact hmem
  · rintro ⟨P, hP, h | h⟩
    · exact ⟨P, hP, by rw [h.1, h.2]; exact List.mem_cons_self _ _⟩
    · exact ⟨P, hP, by rw [h.1, h.2]; simp⟩

/-- The invariant maintained while replaying the `add_edge` calls. -/
def BuildInv (n : Nat) (adj : List (List Edge)) (lens : List Nat)
    (pairs : List PairLoc) : Prop :=
  adj.length = n ∧ lens.length = n ∧
  (∀ x, x < n → lens.getD x 0 = (adjAt adj x).length) ∧
  StructOK adj pairs ∧
  (∀ x, x < n → ∀ e ∈ adjAt adj x, e.flow = 0) ∧
  (∀ P ∈ pairs, 0 ≤ P.cap)

/-- One step of the paired fold of `buildAdj` and `pairsOf`. -/
def pairsStep (p : List Nat × List PairLoc) (e : Nat × Nat × Int) :
    List Nat × List PairLoc :=
  let lu := p.1.getD e.1 0
  let lv := p.1.getD e.2.1 0
  let lens1 := p.1.set e.1 (lu + 1)
  let lens2 := lens1.set e.2.1 (lens1.getD e.2.1 0 + 1)
  let j := if e.1 = e.2.1 then lu + 1 else lv
  (lens2, p.2 ++ [⟨e.1, lu, e.2.1, j, e.2.2⟩])

theorem pairsOf_eq_fold (n : Nat) (es : List (Nat × Nat × Int)) :
    pairsOf n es = (es.foldl pairsStep (List.replicate n 0, [])).2 := rfl

/-- Indices of member locations are below the row lengths. -/
theorem locs_lt (adj : List (List Edge)) (pairs : List PairLoc)
    (hmem : ∀ P ∈ pairs, PairMem adj P) :
    ∀ x idx, (x, idx) ∈ locsOf pairs → idx < (adjAt adj x).length := by
  intro x idx h
  rw [mem_locsOf] at h
  obtain ⟨P, hP, hcase⟩ := h
  obtain ⟨_, _, hi, hj, _⟩ := hmem P hP
  rcases hcase with ⟨hx, hidx⟩ | ⟨hx, hidx⟩
  · rw [hx, hidx]; exact hi
  · rw [hx, hidx]; exact hj

/-- One `add_edge` call extends the build invariant. -/
theorem build_step (n : Nat) (adj : List (List Edge)) (lens : List Nat)
    (pairs : List PairLoc) (u v : Nat) (c : Int)
    (hinv : BuildInv n adj lens pairs) (hu : u < n) (hv : v < n)
    (hc : 0 ≤ c) :
    BuildInv n (add_edge adj u v c) (pairsStep (lens, pairs) (u, v, c)).1
      (pairsStep (lens, pairs) (u, v, c)).2 := by
  obtain ⟨hlen, hlenlen, htrack, ⟨hmem, hnodup, hcomp⟩, hflow, hcap⟩ := hinv
  have hu' : u < adj.length := hlen ▸ hu
  have hv' : v < adj.length := hlen ▸ hv
  have hLu : lens.getD u 0 = (adjAt adj u).length := htrack u hu
  have hLv : lens.getD v 0 = (adjAt adj v).length := htrack v hv
  show BuildInv n (add_edge adj u v c)
    ((lens.set u (lens.getD u 0 + 1)).set v
      ((lens.set u (lens.getD u 0 + 1)).getD v 0 + 1))
    (pairs ++ [⟨u, lens.getD u 0, v,
      if u = v then lens.getD u 0 + 1 else lens.getD v 0, c⟩])
  have hrow_other : ∀ x, x ≠ u → x ≠ v →
      adjAt (add_edge adj u v c) x = adjAt adj x :=
    fun x hxu hxv => add_edge_row_other adj u v x c hxu hxv
  -- row description facts
  have hrows : ∀ x, x < n →
      ((adjAt (add_edge adj u v c) x).length = (adjAt adj x).length +
        (if x = u then 1 else 0) + (if x = v then 1 else 0)) ∧
      (∀ i, i < (adjAt adj x).length →
        nthE (adjAt (add_edge adj u v c) x) i = nthE (adjAt adj x) i) := by
    intro x hx
    by_cases hxu : x = u
    · by_cases hxv : x = v
      · have huv : u = v := hxu.symm.trans hxv
        rw [if_pos hxu, if_pos hxv, hxu, ← huv,
          add_edge_row_self adj u c hu']
        exact ⟨by simp, fun i hi => nthE_append_left _ _ i hi⟩
      · have huv : u ≠ v := fun h => hxv (hxu.trans h)
        rw [if_pos hxu, if_neg hxv, hxu, add_edge_row_u adj u v c huv hu']
        exact ⟨by simp, fun i hi => nthE_append_left _ _ i hi⟩
    · by_cases hxv : x = v
      · have huv : u ≠ v := fun h => hxu (hxv.trans h.symm)
        rw [if_neg hxu, if_pos hxv, hxv,
          add_edge_row_v adj u v c huv hu' hv']
        exact ⟨by simp, fun i hi => nthE_append_left _ _ i hi⟩
      · rw [if_neg hxu, if_neg hxv, hrow_other x hxu hxv]
        exact ⟨by simp, fun i _ => rfl⟩
  -- the new pair and its member records
  have hnewmem : PairMem (add_edge adj u v c)
      ⟨u, lens.getD u 0, v,
        if u = v then lens.getD u 0 + 1 else lens.getD v 0, c⟩ := by
    by_cases huv : u = v
    · subst huv
      rw [if_pos rfl]
      have hrow := add_edge_row_self adj u c hu'
      have hfw : fwdE (add_edge adj u u c)
          ⟨u, lens.getD u 0, u, lens.getD u 0 + 1, c⟩ =
          ⟨u, c, 0, (adjAt adj u).length⟩ := by
        rw [fwdE]
        dsimp only
        rw [hrow, hLu, nthE_append_at]
      have hrv : revE (add_edge adj u u c)
          ⟨u, lens.getD u 0, u, lens.getD u 0 + 1, c⟩ =
          ⟨u, 0, 0, (adjAt adj u).length⟩ := by
        rw [revE]
        dsimp only
        rw [hrow, hLu]
        exact nthE_append_at1 _ _ _
      refine ⟨by rw [add_edge_length]; exact hu',
        by rw [add_edge_length]; exact hu', ?_, ?_, ?_, ?_, ?_, ?_, ?_⟩
      · dsimp only
        rw [hrow, hLu]
        simp
      · dsimp only
        rw [hrow, hLu]
        simp
      · rw [hfw]
      · rw [hfw]
      · rw [hrv]
      · rw [hrv]
      · rw [if_pos rfl]
        refine ⟨rfl, ?_, ?_⟩
        · rw [hfw]
          exact hLu.symm
        · rw [hrv]
          exact hLu.symm
    · rw [if_neg huv]
      have hrowu := add_edge_row_u adj u v c huv hu'
      have hrowv := add_edge_row_v adj u v c huv hu' hv'
      have hfw : fwdE (add_edge adj u v c)
          ⟨u, lens.getD u 0, v, lens.getD v 0, c⟩ =
          ⟨v, c, 0, (adjAt adj v).length⟩ := by
        rw [fwdE]
        dsimp only
        rw [hrowu, hLu, nthE_append_at]
      have hrv : revE (add_edge adj u v c)
          ⟨u, lens.getD u 0, v, lens.getD v 0, c⟩ =
          ⟨u, 0, 0, (adjAt adj u).length⟩ := by
        rw [revE]
        dsimp only
        rw [hrowv, hLv, nthE_append_at]
      refine ⟨by rw [add_edge_length]; exact hu',
        by rw [add_edge_length]; exact hv', ?_, ?_, ?_, ?_, ?_, ?_, ?_⟩
      · dsimp only
        rw [hrowu, hLu]
        simp
      · dsimp only
        rw [hrowv, hLv]
        simp
      · rw [hfw]
      · rw [hfw]
      · rw [hrv]
      · rw [hrv]
      · rw [if_neg huv]
        refine ⟨?_, ?_⟩
        · rw [hfw]
          exact hLv.symm
        · rw [hrv]
          exact hLu.symm
  refine ⟨?_, ?_, ?_, ⟨?_, ?_, ?_⟩, ?_, ?_⟩
  · rw [add_edge_length]; exact hlen
  · simp [hlenlen]
  · -- length tracking
    intro x hx
    obtain ⟨hrlen, _⟩ := hrows x hx
    rw [hrlen]
    by_cases hxv : x = v
    · rw [hxv, getD_set_self _ _ _ _
        (by rw [List.length_set, hlenlen]; exact hv)]
      by_cases huv : u = v
      · rw [← huv, getD_set_self _ _ _ _ (by rw [hlenlen]; exact hu), hLu,
          if_pos rfl]
      · have hvu : ¬ v = u := fun h => huv h.symm
        rw [getD_set_ne _ _ _ _ _ huv, hLv, if_neg hvu, if_pos rfl]
    · rw [getD_set_ne _ _ _ _ _ (fun h => hxv h.symm), if_neg hxv]
      by_cases hxu : x = u
      · rw [hxu, getD_set_self _ _ _ _ (by rw [hlenlen]; exact hu), hLu,
          if_pos rfl]
      · rw [getD_set_ne _ _ _ _ _ (fun h => hxu h.symm), htrack x hx,
          if_neg hxu]
        omega
  · -- membership of all pairs
    intro P hP
    rcases List.mem_append.1 hP with hold | hnew
    · obtain ⟨hPu, hPv, hPi, hPj, hfto, hfcap, hrto, hrcap, hptr⟩ := hmem P hold
      have hPu' : P.u < n := hlen ▸ hPu
      have hPv' : P.v < n := hlen ▸ hPv
      have hfwd : fwdE (add_edge adj u v c) P = fwdE adj P :=
        (hrows P.u hPu').2 P.i hPi
      have hrev : revE (add_edge adj u v c) P = revE adj P :=
        (hrows P.v hPv').2 P.j hPj
      refine ⟨by rw [add_edge_length]; exact hPu,
        by rw [add_edge_length]; exact hPv,
        by have := (hrows P.u hPu').1; omega,
        by have := (hrows P.v hPv').1; omega,
        by rw [hfwd]; exact hfto, by rw [hfwd]; exact hfcap,
        by rw [hrev]; exact hrto, by rw [hrev]; exact hrcap, ?_⟩
      rw [hfwd, hrev]
      exact hptr
    · have hP : P = ⟨u, lens.getD u 0, v,
          if u = v then lens.getD u 0 + 1 else lens.getD v 0, c⟩ := by
        simpa using hnew
      rw [hP]
      exact hnewmem
  · -- Nodup of the locations
    have hsplit : locsOf (pairs ++ [⟨u, lens.getD u 0, v,
        if u = v then lens.getD u 0 + 1 else lens.getD v 0, c⟩]) =
        locsOf pairs ++ [(u, lens.getD u 0),
          (v, if u = v then lens.getD u 0 + 1 else lens.getD v 0)] := by
      rw [locsOf, List.flatMap_append]
      rfl
    rw [hsplit, List.nodup_append]
    refine ⟨hnodup, ?_, ?_⟩
    · by_cases huv : u = v
      · rw [← huv, if_pos rfl]
        refine List.nodup_cons.2 ⟨?_, List.nodup_singleton _⟩
        simp only [List.mem_singleton, Prod.mk.injEq, not_and]
        intro _
        omega
      · refine List.nodup_cons.2 ⟨?_, List.nodup_singleton _⟩
        simp only [List.mem_singleton, Prod.mk.injEq, not_and]
        intro h
        exact absurd h huv
    · intro l hl hl2
      have hlt := locs_lt adj pairs hmem l.1 l.2 (by simpa using hl)
      simp only [List.mem_cons, List.mem_singleton, List.not_mem_nil,
        or_false] at hl2
      rcases hl2 with h | h
      · rw [h] at hlt
        simp only at hlt
        omega
      · rw [h] at hlt
        simp only at hlt
        by_cases huv : u = v
        · rw [if_pos huv] at hlt
          rw [← huv] at hlt
          omega
        · rw [if_neg huv] at hlt
          omega
  · -- completeness
    intro x hx idx hidx
    have hx' : x < n := by rw [add_edge_length] at hx; exact hlen ▸ hx
    obtain ⟨hrlen, _⟩ := hrows x hx'
    have hsplit : locsOf (pairs ++ [⟨u, lens.getD u 0, v,
        if u = v then lens.getD u 0 + 1 else lens.getD v 0, c⟩]) =
        locsOf pairs ++ [(u, lens.getD u 0),
          (v, if u = v then lens.getD u 0 + 1 else lens.getD v 0)] := by
      rw [locsOf, List.flatMap_append]
      rfl
    rw [hsplit, List.mem_append]
    rw [hrlen] at hidx
    by_cases hidxold : idx < (adjAt adj x).length
    · exact Or.inl (hcomp x (hlen ▸ hx') idx hidxold)
    · right
      by_cases hxu : x = u
      · by_cases hxv : x = v
        · have huv : u = v := hxu.symm.trans hxv
          rw [if_pos hxu, if_pos hxv] at hidx
          rw [← huv, if_pos rfl, hxu]
          simp only [List.mem_cons, List.not_mem_nil, or_false,
            Prod.mk.injEq]
          rw [hxu] at hidxold hidx
          rcases (by omega : idx = (adjAt adj u).length ∨
              idx = (adjAt adj u).length + 1) with h | h
          · exact Or.inl ⟨trivial, by rw [hLu, h]⟩
          · exact Or.inr ⟨trivial, by rw [hLu]; omega⟩
        · have huv : u ≠ v := fun h => hxv (hxu.trans h)
          rw [if_pos hxu, if_neg hxv] at hidx
          rw [if_neg huv, hxu]
          simp only [List.mem_cons, List.not_mem_nil, or_false,
            Prod.mk.injEq]
          rw [hxu] at hidxold hidx
          refine Or.inl ⟨trivial, ?_⟩
          rw [hLu]
          omega
      · by_cases hxv : x = v
        · have huv : u ≠ v := fun h => hxu (hxv.trans h.symm)
          rw [if_neg hxu, if_pos hxv] at hidx
          rw [if_neg huv, hxv]
          simp only [List.mem_cons, List.not_mem_nil, or_false,
            Prod.mk.injEq]
          rw [hxv] at hidxold hidx
          refine Or.inr ⟨trivial, ?_⟩
          rw [hLv]
          omega
        · rw [if_neg hxu, if_neg hxv] at hidx
          exact absurd (by omega : idx < (adjAt adj x).length) hidxold
  · -- flows are zero
    intro x hx e he
    by_cases hxu : x = u
    · subst hxu
      by_cases hxv : x = v
      · subst hxv
        rw [add_edge_row_self adj x c hu'] at he
        rcases List.mem_append.1 he with h | h
        · exact hflow x hx e h
        · simp only [List.mem_cons, List.mem_singleton, List.not_mem_nil,
            or_false] at h
          rcases h with h | h <;> rw [h]
      · rw [add_edge_row_u adj x v c hxv hu'] at he
        rcases List.mem_append.1 he with h | h
        · exact hflow x hx e h
        · rw [List.mem_singleton.1 h]
    · by_cases hxv : x = v
      · subst hxv
        rw [add_edge_row_v adj u x c (fun h => hxu h.symm) hu' hv'] at he
        rcases List.mem_append.1 he with h | h
        · exact hflow x hx e h
        · rw [List.mem_singleton.1 h]
      · rw [hrow_other x hxu hxv] at he
        exact hflow x hx e he
  · -- capacities are non-negative
    intro P hP
    rcases List.mem_append.1 hP with h | h
    · exact hcap P h
    · have : P = ⟨u, lens.getD u 0, v,
          if u = v then lens.getD u 0 + 1 else lens.getD v 0, c⟩ := by
        simpa using h
      rw [this]
      exact hc

/-- Replaying a list of valid `add_edge` calls preserves the invariant. -/
theorem build_fold (n : Nat) :
    ∀ (es : List (Nat × Nat × Int)) (adj : List (List Edge))
      (lens : List Nat) (pairs : List PairLoc),
      BuildInv n adj lens pairs → ValidEdges n es →
      BuildInv n (es.foldl (fun a e => add_edge a e.1 e.2.1 e.2.2) adj)
        ((es.foldl pairsStep (lens, pairs)).1)
        ((es.foldl pairsStep (lens, pairs)).2)
  | [], _, _, _, hinv, _ => hinv
  | e :: es, adj, lens, pairs, hinv, hval => by
    have he := hval e (List.mem_cons_self e es)
    have hstep := build_step n adj lens pairs e.1 e.2.1 e.2.2 hinv he.1
      he.2.1 he.2.2
    have hval' : ValidEdges n es :=
      fun x hx => hval x (List.mem_cons_of_mem e hx)
    exact build_fold n es (add_edge adj e.1 e.2.1 e.2.2)
      (pairsStep (lens, pairs) e).1 (pairsStep (lens, pairs) e).2 hstep hval'

/-- The initial (empty) state of the build satisfies the invariant. -/
theorem build_init (n : Nat) :
    BuildInv n (List.replicate n []) (List.replicate n 0) [] := by
  refine ⟨by simp, by simp, ?_, ⟨?_, ?_, ?_⟩, ?_, ?_⟩
  · intro x hx
    rw [getD_replicate_lt _ _ _ _ hx, adjAt,
      getD_replicate_lt _ _ _ _ (by simpa using hx)]
    rfl
  · intro P hP
    cases hP
  · simp [locsOf]
  · intro x hx idx hidx
    rw [adjAt, getD_replicate_lt _ _ _ _ (by simpa using hx)] at hidx
    cases hidx
  · intro x hx e he
    rw [adjAt, getD_replicate_lt _ _ _ _ (by simpa using hx)] at he
    cases he
  · intro P hP
    cases hP

/-- The row-length list reached after the whole build. -/
def foldLens (n : Nat) (es : List (Nat × Nat × Int)) : List Nat :=
  (es.foldl pairsStep (List.replicate n 0, [])).1

/-- The invariant reached after the whole build. -/
theorem buildAdj_inv (n : Nat) (es : List (Nat × Nat × Int))
    (hval : ValidEdges n es) :
    BuildInv n (buildAdj n es) (foldLens n es) (pairsOf n es) ∧
      (∀ x, x < n → ∀ e ∈ adjAt (buildAdj n es) x, e.flow = 0) := by
  have h := build_fold n es (List.replicate n []) (List.replicate n 0) []
    (build_init n) hval
  exact ⟨h, h.2.2.2.2.1⟩

/-- A freshly built valid graph satisfies the invariant pack. -/
theorem build_good (n : Nat) (es : List (Nat × Nat × Int))
    (hval : ValidEdges n es) :
    GoodGraph n (buildAdj n es) (pairsOf n es) := by
  obtain ⟨⟨h1, _, _, h4, h5, h6⟩, _⟩ := buildAdj_inv n es hval
  refine ⟨h1, h4, ?_, ?_⟩
  · intro P hP
    obtain ⟨hPu, hPv, hPi, hPj, _⟩ := h4.1 P hP
    have hf : (fwdE (buildAdj n es) P).flow = 0 := by
      apply h5 P.u (h1 ▸ hPu)
      rw [fwdE, nthE, List.getD_eq_getElem _ _ hPi]
      exact List.getElem_mem hPi
    have hr : (revE (buildAdj n es) P).flow = 0 := by
      apply h5 P.v (h1 ▸ hPv)
      rw [revE, nthE, List.getD_eq_getElem _ _ hPj]
      exact List.getElem_mem hPj
    rw [hf, hr]
    rfl
  · intro x hx e he
    have hf := h5 x (h1 ▸ hx) e he
    rw [hf]
    obtain ⟨i, hilt, hieq⟩ := List.mem_iff_getElem.1 he
    have hloc := h4.2.2 x hx i hilt
    rw [mem_locsOf] at hloc
    obtain ⟨P, hP, hcase⟩ := hloc
    obtain ⟨hPu, hPv, hPi, hPj, hfto, hfcap, hrto, hrcap, _⟩ := h4.1 P hP
    rcases hcase with ⟨hx1, hx2⟩ | ⟨hx1, hx2⟩
    · have hef : e = fwdE (buildAdj n es) P := by
        rw [fwdE, ← hx1, ← hx2, nthE, List.getD_eq_getElem _ _ hilt]
        exact hieq.symm
      rw [hef, hfcap]
      exact h6 P hP
    · have her : e = revE (buildAdj n es) P := by
        rw [revE, ← hx1, ← hx2, nthE, List.getD_eq_getElem _ _ hilt]
        exact hieq.symm
      rw [her, hrcap]

/-! ### Effect of one paired push -/

theorem Edge.eq_of_fields (a b : Edge) (h1 : a.to = b.to)
    (h2 : a.cap = b.cap) (h3 : a.flow = b.flow) (h4 : a.rev = b.rev) :
    a = b := by
  cases a
  cases b
  simp only at h1 h2 h3 h4
  rw [h1, h2, h3, h4]

theorem nthE_set_self (l : List Edge) (j : Nat) (a : Edge)
    (h : j < l.length) : nthE (l.set j a) j = a :=
  getD_set_self l j a dEdge h

theorem nthE_set_ne (l : List Edge) (j i : Nat) (a : Edge) (h : j ≠ i) :
    nthE (l.set j a) i = nthE l i :=
  getD_set_ne l j i a dEdge h

/-- `pushOne` written as two explicit `set` operations. -/
theorem pushOne_def (adj : List (List Edge)) (p j : Nat) (f : Int) :
    pushOne adj p j f =
      (adj.set p ((adjAt adj p).set j
        { nthE (adjAt adj p) j with flow := (nthE (adjAt adj p) j).flow + f })).set
        (nthE (adjAt adj p) j).to
        ((adjAt (adj.set p ((adjAt adj p).set j
          { nthE (adjAt adj p) j with flow := (nthE (adjAt adj p) j).flow + f }))
            (nthE (adjAt adj p) j).to).set (nthE (adjAt adj p) j).rev
          { nthE (adjAt (adj.set p ((adjAt adj p).set j
              { nthE (adjAt adj p) j with
                flow := (nthE (adjAt adj p) j).flow + f }))
                (nthE (adjAt adj p) j).to) (nthE (adjAt adj p) j).rev with
            flow := (nthE (adjAt (adj.set p ((adjAt adj p).set j
              { nthE (adjAt adj p) j with
                flow := (nthE (adjAt adj p) j).flow + f }))
                (nthE (adjAt adj p) j).to)
                (nthE (adjAt adj p) j).rev).flow - f }) := rfl

theorem pushOne_length (adj : List (List Edge)) (p j : Nat) (f : Int) :
    (pushOne adj p j f).length = adj.length := by
  rw [pushOne_def]
  simp

/-- Row lengths are unchanged by a push. -/
theorem pushOne_rowlen (adj : List (List Edge)) (p j : Nat) (f : Int)
    (x : Nat) :
    (adjAt (pushOne adj p j f) x).length = (adjAt adj x).length := by
  rw [pushOne_def]
  set e := nthE (adjAt adj p) j
  set adj1 := adj.set p ((adjAt adj p).set j { e with flow := e.flow + f })
    with hadj1
  have h1 : ∀ y, (adjAt adj1 y).length = (adjAt adj y).length := by
    intro y
    by_cases hy : p = y
    · subst hy
      by_cases hp : p < adj.length
      · rw [hadj1, adjAt_set_self _ _ _ hp]
        simp
      · rw [hadj1, adjAt, List.getD_eq_default, adjAt, List.getD_eq_default]
        · simpa using Nat.le_of_not_lt hp
        · simpa using Nat.le_of_not_lt hp
    · rw [hadj1, adjAt_set_ne _ _ _ _ hy]
  by_cases hx : e.to = x
  · subst hx
    by_cases he : e.to < adj1.length
    · rw [adjAt_set_self _ _ _ he]
      rw [List.length_set]
      exact h1 e.to
    · rw [adjAt, List.getD_eq_default _ _ (by simpa using Nat.le_of_not_lt he)]
      have : adj1.length ≤ e.to := Nat.le_of_not_lt he
      rw [hadj1] at this
      simp only [List.length_set] at this
      rw [adjAt, List.getD_eq_default _ _ this]
  · rw [adjAt_set_ne _ _ _ _ hx]
    exact h1 x

/-- Entries other than the pushed one and its stored partner are
unchanged. -/
theorem pushOne_other (adj : List (List Edge)) (p j : Nat) (f : Int)
    (x i : Nat) (hne1 : ¬(x = p ∧ i = j))
    (hne2 : ¬(x = (nthE (adjAt adj p) j).to ∧
      i = (nthE (adjAt adj p) j).rev)) :
    nthE (adjAt (pushOne adj p j f) x) i = nthE (adjAt adj x) i := by
  rw [pushOne_def]
  set e := nthE (adjAt adj p) j with he
  set adj1 := adj.set p ((adjAt adj p).set j { e with flow := e.flow + f })
    with hadj1
  have h1 : nthE (adjAt adj1 x) i = nthE (adjAt adj x) i := by
    by_cases hxp : p = x
    · subst hxp
      by_cases hp : p < adj.length
      · rw [hadj1, adjAt_set_self _ _ _ hp, nthE_set_ne]
        intro hji
        exact hne1 ⟨rfl, hji.symm⟩
      · rw [hadj1, adjAt, List.getD_eq_default _ _
          (by simpa using Nat.le_of_not_lt hp)]
        rw [adjAt, List.getD_eq_default _ _ (Nat.le_of_not_lt hp)]
    · rw [hadj1, adjAt_set_ne _ _ _ _ hxp]
  by_cases hxq : e.to = x
  · by_cases hq : e.to < adj1.length
    · rw [← hxq, adjAt_set_self _ _ _ hq, nthE_set_ne]
      · rw [hxq]
        exact h1
      · intro hki
        exact hne2 ⟨hxq.symm, hki.symm⟩
    · rw [List.set_eq_of_length_le (Nat.le_of_not_lt hq)]
      exact h1
  · rw [adjAt_set_ne _ _ _ _ hxq]
    exact h1

theorem set_getD_self {α : Type*} (l : List α) (i : Nat) (d : α)
    (h : i < l.length) : l.set i (l.getD i d) = l := by
  apply List.ext_getElem
  · simp
  · intro n h1 h2
    rw [List.getElem_set]
    split
    · subst n
      rw [List.getD_eq_getElem _ _ h]
    · rfl

/-- A push on a self-aliased record (the record stores itself as partner,
which happens exactly for the forward record of a self-loop) changes
nothing. -/
theorem pushOne_self_alias (adj : List (List Edge)) (p j : Nat) (f : Int)
    (hp : p < adj.length) (hj : j < (adjAt adj p).length)
    (h1 : (nthE (adjAt adj p) j).to = p)
    (h2 : (nthE (adjAt adj p) j).rev = j) :
    pushOne adj p j f = adj := by
  rw [pushOne_def, h1, h2, adjAt_set_self _ _ _ hp,
    nthE_set_self _ _ _ (by simpa using hj), List.set_set]
  have heq : ({ nthE (adjAt adj p) j with
      flow := ({ nthE (adjAt adj p) j with
        flow := (nthE (adjAt adj p) j).flow + f } : Edge).flow - f } : Edge) =
      nthE (adjAt adj p) j := by
    refine Edge.eq_of_fields _ _ rfl rfl ?_ rfl
    show (nthE (adjAt adj p) j).flow + f - f = (nthE (adjAt adj p) j).flow
    ring
  rw [List.set_set, heq, nthE, set_getD_self _ _ _ hj, adjAt,
    set_getD_self _ _ _ hp]

/-- A push on a record that is not self-aliased: the pushed record gains `f`
and the stored partner loses `f`. -/
theorem pushOne_at (adj : List (List Edge)) (p j : Nat) (f : Int)
    (hp : p < adj.length) (hj : j < (adjAt adj p).length)
    (hq : (nthE (adjAt adj p) j).to < adj.length)
    (hk : (nthE (adjAt adj p) j).rev <
      (adjAt adj (nthE (adjAt adj p) j).to).length)
    (hnal : ¬((nthE (adjAt adj p) j).to = p ∧
      (nthE (adjAt adj p) j).rev = j)) :
    nthE (adjAt (pushOne adj p j f) p) j =
      { nthE (adjAt adj p) j with flow := (nthE (adjAt adj p) j).flow + f } ∧
    nthE (adjAt (pushOne adj p j f) (nthE (adjAt adj p) j).to)
        (nthE (adjAt adj p) j).rev =
      { nthE (adjAt adj (nthE (adjAt adj p) j).to)
          (nthE (adjAt adj p) j).rev with
        flow := (nthE (adjAt adj (nthE (adjAt adj p) j).to)
          (nthE (adjAt adj p) j).rev).flow - f } := by
  rw [pushOne_def]
  by_cases hqp : (nthE (adjAt adj p) j).to = p
  · have hkj : (nthE (adjAt adj p) j).rev ≠ j := fun h => hnal ⟨hqp, h⟩
    rw [hqp, adjAt_set_self _ _ _ hp,
      nthE_set_ne _ _ _ _ (fun h => hkj h.symm), List.set_set,
      adjAt_set_self _ _ _ hp]
    constructor
    · rw [nthE_set_ne _ _ _ _ hkj, nthE_set_self _ _ _ (by simpa using hj)]
    · rw [nthE_set_self]
      rw [List.length_set]
      have h2 := hqp ▸ hk
      exact h2
  · have hne : p ≠ (nthE (adjAt adj p) j).to := fun h => hqp h.symm
    rw [adjAt_set_ne _ _ _ _ hne]
    constructor
    · rw [adjAt_set_ne _ _ _ _ hqp, adjAt_set_self _ _ _ hp,
        nthE_set_self _ _ _ (by simpa using hj)]
    · rw [adjAt_set_self _ _ _ (by simpa using hq),
        nthE_set_self _ _ _ (by simpa using hk)]

/-- Rewriting `ResNonneg` through positions. -/
theorem resNonneg_nth (adj : List (List Edge)) :
    ResNonneg adj ↔ ∀ x, x < adj.length → ∀ i, i < (adjAt adj x).length →
      (nthE (adjAt adj x) i).flow ≤ (nthE (adjAt adj x) i).cap := by
  constructor
  · intro h x hx i hi
    refine h x hx _ ?_
    rw [nthE, List.getD_eq_getElem _ _ hi]
    exact List.getElem_mem hi
  · intro h x hx e he
    obtain ⟨i, hi, hieq⟩ := List.mem_iff_getElem.1 he
    have := h x hx i hi
    rw [nthE, List.getD_eq_getElem _ _ hi, hieq] at this
    exact this

/-- A location determines its pair: if the same location belongs to two
pairs of a duplicate-free pair list, the pairs are equal. -/
theorem loc_unique (pairs : List PairLoc) (hnodup : (locsOf pairs).Nodup) :
    ∀ P ∈ pairs, ∀ Q ∈ pairs, ∀ l : Nat × Nat,
      (l = (P.u, P.i) ∨ l = (P.v, P.j)) →
      (l = (Q.u, Q.i) ∨ l = (Q.v, Q.j)) → P = Q := by
  induction pairs with
  | nil => intro P hP; cases hP
  | cons R rest ih =>
    intro P hP Q hQ l hPl hQl
    have hsplit : locsOf (R :: rest) = [(R.u, R.i), (R.v, R.j)] ++ locsOf rest := rfl
    rw [hsplit, List.nodup_append] at hnodup
    obtain ⟨hn1, hn2, hdisj⟩ := hnodup
    have hmem2 : ∀ S, S ∈ rest → (l = (S.u, S.i) ∨ l = (S.v, S.j)) →
        l ∈ locsOf rest := by
      intro S hS hl
      rw [show l = (l.1, l.2) from rfl, mem_locsOf]
      refine ⟨S, hS, ?_⟩
      rcases hl with h | h
      · exact Or.inl ⟨congrArg Prod.fst h, congrArg Prod.snd h⟩
      · exact Or.inr ⟨congrArg Prod.fst h, congrArg Prod.snd h⟩
    have hmem1 : ∀ S : PairLoc, (l = (S.u, S.i) ∨ l = (S.v, S.j)) →
        l ∈ [(S.u, S.i), (S.v, S.j)] := by
      intro S hl
      rcases hl with h | h
      · rw [h]; exact List.mem_cons_self _ _
      · rw [h]; simp
    rcases List.mem_cons.1 hP with hPR | hPrest
    · rcases List.mem_cons.1 hQ with hQR | hQrest
      · rw [hPR, hQR]
      · exfalso
        exact hdisj (hPR ▸ hmem1 P hPl) (hmem2 Q hQrest hQl)
    · rcases List.mem_cons.1 hQ with hQR | hQrest
      · exfalso
        exact hdisj (hQR ▸ hmem1 Q hQl) (hmem2 P hPrest hPl)
      · exact ih hn2 P hPrest Q hQrest l hPl hQl

/-- A push changes no `to`, `cap` or `rev` field anywhere. -/
theorem pushOne_shape (adj : List (List Edge)) (p j : Nat) (f : Int)
    (x i : Nat) :
    (nthE (adjAt (pushOne adj p j f) x) i).to = (nthE (adjAt adj x) i).to ∧
    (nthE (adjAt (pushOne adj p j f) x) i).cap = (nthE (adjAt adj x) i).cap ∧
    (nthE (adjAt (pushOne adj p j f) x) i).rev = (nthE (adjAt adj x) i).rev := by
  have step : ∀ (a : List (List Edge)) (y k : Nat) (w : Int),
      (nthE (adjAt (a.set y ((adjAt a y).set k
        { nthE (adjAt a y) k with flow := w })) x) i).to =
        (nthE (adjAt a x) i).to ∧
      (nthE (adjAt (a.set y ((adjAt a y).set k
        { nthE (adjAt a y) k with flow := w })) x) i).cap =
        (nthE (adjAt a x) i).cap ∧
      (nthE (adjAt (a.set y ((adjAt a y).set k
        { nthE (adjAt a y) k with flow := w })) x) i).rev =
        (nthE (adjAt a x) i).rev := by
    intro a y k w
    by_cases hy : y = x
    · subst hy
      by_cases hylen : y < a.length
      · rw [adjAt_set_self _ _ _ hylen]
        by_cases hki : k = i
        · subst hki
          by_cases hk : k < (adjAt a y).length
          · rw [nthE_set_self _ _ _ hk]
            exact ⟨rfl, rfl, rfl⟩
          · rw [List.set_eq_of_length_le (Nat.le_of_not_lt hk)]
            exact ⟨rfl, rfl, rfl⟩
        · rw [nthE_set_ne _ _ _ _ hki]
          exact ⟨rfl, rfl, rfl⟩
      · rw [List.set_eq_of_length_le (Nat.le_of_not_lt hylen)]
        exact ⟨rfl, rfl, rfl⟩
    · rw [adjAt_set_ne _ _ _ _ hy]
      exact ⟨rfl, rfl, rfl⟩
  rw [pushOne_def]
  obtain ⟨s1, s2, s3⟩ := step
    (adj.set p ((adjAt adj p).set j
      { nthE (adjAt adj p) j with flow := (nthE (adjAt adj p) j).flow + f }))
    (nthE (adjAt adj p) j).to (nthE (adjAt adj p) j).rev
    ((nthE (adjAt (adj.set p ((adjAt adj p).set j
      { nthE (adjAt adj p) j with flow := (nthE (adjAt adj p) j).flow + f }))
      (nthE (adjAt adj p) j).to) (nthE (adjAt adj p) j).rev).flow - f)
  obtain ⟨t1, t2, t3⟩ := step adj p j ((nthE (adjAt adj p) j).flow + f)
  exact ⟨s1.trans t1, s2.trans t2, s3.trans t3⟩

/-- A push preserves the structural description. -/
theorem pushOne_structok (adj : List (List Edge)) (pairs : List PairLoc)
    (hstruct : StructOK adj pairs) (p j : Nat) (f : Int) :
    StructOK (pushOne adj p j f) pairs := by
  obtain ⟨hmem, hnodup, hcomp⟩ := hstruct
  refine ⟨?_, hnodup, ?_⟩
  · intro P hP
    obtain ⟨hPu, hPv, hPi, hPj, hfto, hfcap, hrto, hrcap, hptr⟩ := hmem P hP
    obtain ⟨f1, f2, f3⟩ := pushOne_shape adj p j f P.u P.i
    obtain ⟨r1, r2, r3⟩ := pushOne_shape adj p j f P.v P.j
    refine ⟨by rw [pushOne_length]; exact hPu,
      by rw [pushOne_length]; exact hPv,
      by rw [pushOne_rowlen]; exact hPi,
      by rw [pushOne_rowlen]; exact hPj, ?_, ?_, ?_, ?_, ?_⟩
    · rw [fwdE, f1]; exact hfto
    · rw [fwdE, f2]; exact hfcap
    · rw [revE, r1]; exact hrto
    · rw [revE, r2]; exact hrcap
    · by_cases huv : P.u = P.v
      · rw [if_pos huv] at hptr ⊢
        exact ⟨hptr.1, by rw [fwdE, f3]; exact hptr.2.1,
          by rw [revE, r3]; exact hptr.2.2⟩
      · rw [if_neg huv] at hptr ⊢
        exact ⟨by rw [fwdE, f3]; exact hptr.1, by rw [revE, r3]; exact hptr.2⟩
  · intro x hx idx hidx
    rw [pushOne_length] at hx
    rw [pushOne_rowlen] at hidx
    exact hcomp x hx idx hidx

/-- A push of `0 ≤ f ≤ residual` at a member location preserves paired-flow
antisymmetry and residual non-negativity. -/
theorem pushOne_preserve (adj : List (List Edge)) (pairs : List PairLoc)
    (hstruct : StructOK adj pairs) (hanti : Antisym adj pairs)
    (hres : ResNonneg adj) (p j : Nat) (f : Int)
    (hloc : (p, j) ∈ locsOf pairs) (hf0 : 0 ≤ f)
    (hfle : f ≤ (nthE (adjAt adj p) j).cap - (nthE (adjAt adj p) j).flow) :
    Antisym (pushOne adj p j f) pairs ∧ ResNonneg (pushOne adj p j f) := by
  obtain ⟨hmem, hnodup, hcomp⟩ := hstruct
  rw [mem_locsOf] at hloc
  obtain ⟨P0, hP0, hcase⟩ := hloc
  obtain ⟨hPu, hPv, hPi, hPj, hfto, hfcap, hrto, hrcap, hptr⟩ := hmem P0 hP0
  rcases hcase with ⟨hx1, hx2⟩ | ⟨hx1, hx2⟩
  · -- the pushed record is the forward record of `P0`
    subst hx1
    subst hx2
    by_cases huv : P0.u = P0.v
    · -- self loop: the push is self-aliased and changes nothing
      rw [if_pos huv] at hptr
      have halias := pushOne_self_alias adj P0.u P0.i f hPu hPi
        (by rw [show nthE (adjAt adj P0.u) P0.i = fwdE adj P0 from rfl, hfto,
          ← huv]) (by rw [show nthE (adjAt adj P0.u) P0.i = fwdE adj P0 from
            rfl, hptr.2.1])
      rw [halias]
      exact ⟨hanti, hres⟩
    · rw [if_neg huv] at hptr
      have heto : (nthE (adjAt adj P0.u) P0.i).to = P0.v := hfto
      have herev : (nthE (adjAt adj P0.u) P0.i).rev = P0.j := hptr.1
      have hnal : ¬((nthE (adjAt adj P0.u) P0.i).to = P0.u ∧
          (nthE (adjAt adj P0.u) P0.i).rev = P0.i) := by
        intro hcon
        exact huv (heto ▸ hcon.1).symm
      obtain ⟨hpush1, hpush2⟩ := pushOne_at adj P0.u P0.i f hPu hPi
        (heto ▸ hPv) (by rw [heto, herev]; exact hPj) hnal
      rw [heto, herev] at hpush2
      constructor
      · intro Q hQ
        by_cases hQP : Q = P0
        · subst hQP
          rw [fwdE, revE, hpush1, hpush2]
          have hold := hanti Q hQ
          rw [fwdE, revE] at hold
          simp only
          omega
        · have hQfwd : nthE (adjAt (pushOne adj P0.u P0.i f) Q.u) Q.i =
              nthE (adjAt adj Q.u) Q.i := by
            refine pushOne_other adj P0.u P0.i f Q.u Q.i ?_ ?_
            · intro hcon
              exact hQP (loc_unique pairs hnodup Q hQ P0 hP0 (Q.u, Q.i)
                (Or.inl rfl) (Or.inl (by rw [hcon.1, hcon.2])))
            · rw [heto, herev]
              intro hcon
              exact hQP (loc_unique pairs hnodup Q hQ P0 hP0 (Q.u, Q.i)
                (Or.inl rfl) (Or.inr (by rw [hcon.1, hcon.2])))
          have hQrev : nthE (adjAt (pushOne adj P0.u P0.i f) Q.v) Q.j =
              nthE (adjAt adj Q.v) Q.j := by
            refine pushOne_other adj P0.u P0.i f Q.v Q.j ?_ ?_
            · intro hcon
              exact hQP (loc_unique pairs hnodup Q hQ P0 hP0 (Q.v, Q.j)
                (Or.inr rfl) (Or.inl (by rw [hcon.1, hcon.2])))
            · rw [heto, herev]
              intro hcon
              exact hQP (loc_unique pairs hnodup Q hQ P0 hP0 (Q.v, Q.j)
                (Or.inr rfl) (Or.inr (by rw [hcon.1, hcon.2])))
          rw [fwdE, revE, hQfwd, hQrev]
          exact hanti Q hQ
      · rw [resNonneg_nth]
        intro x hx i hi
        rw [pushOne_length] at hx
        rw [pushOne_rowlen] at hi
        by_cases h1 : x = P0.u ∧ i = P0.i
        · rw [h1.1, h1.2, hpush1]
          have : f ≤ (nthE (adjAt adj P0.u) P0.i).cap -
              (nthE (adjAt adj P0.u) P0.i).flow := hfle
          simp only
          omega
        · by_cases h2 : x = P0.v ∧ i = P0.j
          · rw [h2.1, h2.2, hpush2]
            have hold := (resNonneg_nth adj).1 hres P0.v hPv P0.j hPj
            simp only
            omega
          · rw [pushOne_other adj P0.u P0.i f x i h1
              (by rw [heto, herev]; exact h2)]
            exact (resNonneg_nth adj).1 hres x hx i hi
  · -- the pushed record is the reverse record of `P0`
    subst hx1
    subst hx2
    have heto : (nthE (adjAt adj P0.v) P0.j).to = P0.u := hrto
    have herev : (nthE (adjAt adj P0.v) P0.j).rev = P0.i := by
      by_cases huv : P0.u = P0.v
      · rw [if_pos huv] at hptr
        exact hptr.2.2
      · rw [if_neg huv] at hptr
        exact hptr.2
    have hnal : ¬((nthE (adjAt adj P0.v) P0.j).to = P0.v ∧
        (nthE (adjAt adj P0.v) P0.j).rev = P0.j) := by
      intro hcon
      by_cases huv : P0.u = P0.v
      · rw [if_pos huv] at hptr
        rw [herev] at hcon
        omega
      · exact huv (heto ▸ hcon.1)
    obtain ⟨hpush1, hpush2⟩ := pushOne_at adj P0.v P0.j f hPv hPj
      (heto ▸ hPu) (by rw [heto, herev]; exact hPi) hnal
    rw [heto, herev] at hpush2
    constructor
    · intro Q hQ
      by_cases hQP : Q = P0
      · subst hQP
        rw [fwdE, revE, hpush1, hpush2]
        have hold := hanti Q hQ
        rw [fwdE, revE] at hold
        simp only
        omega
      · have hQfwd : nthE (adjAt (pushOne adj P0.v P0.j f) Q.u) Q.i =
            nthE (adjAt adj Q.u) Q.i := by
          refine pushOne_other adj P0.v P0.j f Q.u Q.i ?_ ?_
          · intro hcon
            exact hQP (loc_unique pairs hnodup Q hQ P0 hP0 (Q.u, Q.i)
              (Or.inl rfl) (Or.inr (by rw [hcon.1, hcon.2])))
          · rw [heto, herev]
            intro hcon
            exact hQP (loc_unique pairs hnodup Q hQ P0 hP0 (Q.u, Q.i)
              (Or.inl rfl) (Or.inl (by rw [hcon.1, hcon.2])))
        have hQrev : nthE (adjAt (pushOne adj P0.v P0.j f) Q.v) Q.j =
            nthE (adjAt adj Q.v) Q.j := by
          refine pushOne_other adj P0.v P0.j f Q.v Q.j ?_ ?_
          · intro hcon
            exact hQP (loc_unique pairs hnodup Q hQ P0 hP0 (Q.v, Q.j)
              (Or.inr rfl) (Or.inr (by rw [hcon.1, hcon.2])))
          · rw [heto, herev]
            intro hcon
            exact hQP (loc_unique pairs hnodup Q hQ P0 hP0 (Q.v, Q.j)
              (Or.inr rfl) (Or.inl (by rw [hcon.1, hcon.2])))
        rw [fwdE, revE, hQfwd, hQrev]
        exact hanti Q hQ
    · rw [resNonneg_nth]
      intro x hx i hi
      rw [pushOne_length] at hx
      rw [pushOne_rowlen] at hi
      by_cases h1 : x = P0.v ∧ i = P0.j
      · rw [h1.1, h1.2, hpush1]
        have : f ≤ (nthE (adjAt adj P0.v) P0.j).cap -
            (nthE (adjAt adj P0.v) P0.j).flow := hfle
        simp only
        omega
      · by_cases h2 : x = P0.u ∧ i = P0.i
        · rw [h2.1, h2.2, hpush2]
          have hold := (resNonneg_nth adj).1 hres P0.u hPu P0.i hPi
          simp only
          omega
        · rw [pushOne_other adj P0.v P0.j f x i h1
            (by rw [heto, herev]; exact h2)]
          exact (resNonneg_nth adj).1 hres x hx i hi

/-- For positions on other rows than the pushed one, a push with `0 ≤ f` can
only decrease the stored flow (the partner record loses `f`; everything else
is untouched). -/
theorem pushOne_flows_le (adj : List (List Edge)) (pairs : List PairLoc)
    (hstruct : StructOK adj pairs) (p j : Nat) (f : Int)
    (hloc : (p, j) ∈ locsOf pairs) (hf0 : 0 ≤ f)
    (x i : Nat) (hx : x ≠ p) :
    (nthE (adjAt (pushOne adj p j f) x) i).flow ≤
      (nthE (adjAt adj x) i).flow := by
  obtain ⟨hmem, hnodup, hcomp⟩ := hstruct
  rw [mem_locsOf] at hloc
  obtain ⟨P0, hP0, hcase⟩ := hloc
  obtain ⟨hPu, hPv, hPi, hPj, hfto, hfcap, hrto, hrcap, hptr⟩ := hmem P0 hP0
  rcases hcase with ⟨hx1, hx2⟩ | ⟨hx1, hx2⟩
  · subst hx1
    subst hx2
    by_cases huv : P0.u = P0.v
    · rw [if_pos huv] at hptr
      rw [pushOne_self_alias adj P0.u P0.i f hPu hPi
        (by rw [show nthE (adjAt adj P0.u) P0.i = fwdE adj P0 from rfl, hfto,
          ← huv]) (by rw [show nthE (adjAt adj P0.u) P0.i = fwdE adj P0 from
            rfl, hptr.2.1])]
    · rw [if_neg huv] at hptr
      have heto : (nthE (adjAt adj P0.u) P0.i).to = P0.v := hfto
      have herev : (nthE (adjAt adj P0.u) P0.i).rev = P0.j := hptr.1
      by_cases h2 : x = P0.v ∧ i = P0.j
      · have hnal : ¬((nthE (adjAt adj P0.u) P0.i).to = P0.u ∧
            (nthE (adjAt adj P0.u) P0.i).rev = P0.i) := by
          intro hcon
          exact huv (heto ▸ hcon.1).symm
        obtain ⟨_, hpush2⟩ := pushOne_at adj P0.u P0.i f hPu hPi
          (heto ▸ hPv) (by rw [heto, herev]; exact hPj) hnal
        rw [heto, herev] at hpush2
        rw [h2.1, h2.2, hpush2]
        simp only
        omega
      · rw [pushOne_other adj P0.u P0.i f x i (fun hc => hx hc.1)
          (by rw [heto, herev]; exact h2)]
  · subst hx1
    subst hx2
    have heto : (nthE (adjAt adj P0.v) P0.j).to = P0.u := hrto
    have herev : (nthE (adjAt adj P0.v) P0.j).rev = P0.i := by
      by_cases huv : P0.u = P0.v
      · rw [if_pos huv] at hptr
        exact hptr.2.2
      · rw [if_neg huv] at hptr
        exact hptr.2
    by_cases h2 : x = P0.u ∧ i = P0.i
    · have hnal : ¬((nthE (adjAt adj P0.v) P0.j).to = P0.v ∧
          (nthE (adjAt adj P0.v) P0.j).rev = P0.j) := by
        intro hcon
        by_cases huv : P0.u = P0.v
        · rw [if_pos huv] at hptr
          rw [herev] at hcon
          omega
        · exact huv (heto ▸ hcon.1)
      obtain ⟨_, hpush2⟩ := pushOne_at adj P0.v P0.j f hPv hPj
        (heto ▸ hPu) (by rw [heto, herev]; exact hPi) hnal
      rw [heto, herev] at hpush2
      rw [h2.1, h2.2, hpush2]
      simp only
      omega
    · rw [pushOne_other adj P0.v P0.j f x i (fun hc => hx hc.1)
        (by rw [heto, herev]; exact h2)]

/-- Pushing a common amount `0 ≤ f` below every current-arc residual along a
duplicate-free node list preserves the invariant pack. -/
theorem pushPath_preserve (pairs : List PairLoc) (cur : List Nat) (f : Int)
    (hf0 : 0 ≤ f) :
    ∀ (path : List Nat) (adj : List (List Edge)),
      StructOK adj pairs → Antisym adj pairs → ResNonneg adj →
      path.Nodup →
      (∀ p ∈ path, p < adj.length ∧ curAt cur p < (adjAt adj p).length ∧
        f ≤ (nthE (adjAt adj p) (curAt cur p)).cap -
          (nthE (adjAt adj p) (curAt cur p)).flow) →
      StructOK (pushPath adj cur path f) pairs ∧
      Antisym (pushPath adj cur path f) pairs ∧
      ResNonneg (pushPath adj cur path f) ∧
      (pushPath adj cur path f).length = adj.length := by
  intro path
  induction path with
  | nil => intro adj h1 h2 h3 _ _; exact ⟨h1, h2, h3, rfl⟩
  | cons p rest ih =>
    intro adj h1 h2 h3 hnodup hok
    obtain ⟨hp, hcur, hres⟩ := hok p (List.mem_cons_self _ _)
    have hloc : (p, curAt cur p) ∈ locsOf pairs := h1.2.2 p hp _ hcur
    have hpres := pushOne_preserve adj pairs h1 h2 h3 p (curAt cur p) f hloc
      hf0 hres
    have hso := pushOne_structok adj pairs h1 p (curAt cur p) f
    have hrest : ∀ q ∈ rest, q < (pushOne adj p (curAt cur p) f).length ∧
        curAt cur q < (adjAt (pushOne adj p (curAt cur p) f) q).length ∧
        f ≤ (nthE (adjAt (pushOne adj p (curAt cur p) f) q)
            (curAt cur q)).cap -
          (nthE (adjAt (pushOne adj p (curAt cur p) f) q)
            (curAt cur q)).flow := by
      intro q hq
      obtain ⟨hq1, hq2, hq3⟩ := hok q (List.mem_cons_of_mem _ hq)
      have hqp : q ≠ p := fun h => (List.nodup_cons.1 hnodup).1 (h ▸ hq)
      refine ⟨by rw [pushOne_length]; exact hq1,
        by rw [pushOne_rowlen]; exact hq2, ?_⟩
      have hcap := (pushOne_shape adj p (curAt cur p) f q (curAt cur q)).2.1
      have hfl := pushOne_flows_le adj pairs h1 p (curAt cur p) f hloc hf0
        q (curAt cur q) hqp
      omega
    have hfold : pushPath adj cur (p :: rest) f =
        pushPath (pushOne adj p (curAt cur p) f) cur rest f := rfl
    rw [hfold]
    obtain ⟨hh1, hh2, hh3, hh4⟩ := ih (pushOne adj p (curAt cur p) f) hso
      hpres.1 hpres.2 (List.nodup_cons.1 hnodup).2 hrest
    exact ⟨hh1, hh2, hh3, by rw [hh4, pushOne_length]⟩

/-! ### Fold-min facts for the bottleneck -/

theorem foldl_min_le_init {α : Type*} (g : α → Int) :
    ∀ (l : List α) (a : Int), l.foldl (fun m x => min m (g x)) a ≤ a := by
  intro l
  induction l with
  | nil => intro a; exact le_refl a
  | cons x xs ih =>
    intro a
    exact le_trans (ih (min a (g x))) (min_le_left _ _)

theorem foldl_min_le_mem {α : Type*} (g : α → Int) :
    ∀ (l : List α) (a : Int) (p : α), p ∈ l →
      l.foldl (fun m x => min m (g x)) a ≤ g p := by
  intro l
  induction l with
  | nil => intro a p hp; cases hp
  | cons x xs ih =>
    intro a p hp
    rcases List.mem_cons.1 hp with hpx | hpxs
    · rw [hpx]
      exact le_trans (foldl_min_le_init g xs (min a (g x))) (min_le_right _ _)
    · exact ih (min a (g x)) p hpxs

theorem foldl_min_pos {α : Type*} (g : α → Int) :
    ∀ (l : List α) (a : Int), 0 < a → (∀ x ∈ l, 0 < g x) →
      0 < l.foldl (fun m x => min m (g x)) a := by
  intro l
  induction l with
  | nil => intro a ha _; exact ha
  | cons x xs ih =>
    intro a ha hall
    exact ih (min a (g x)) (lt_min ha (hall x (List.mem_cons_self _ _)))
      (fun y hy => hall y (List.mem_cons_of_mem _ hy))

/-! ### The admissible-arc scan, characterised -/

/-- What a successful scan returns: the offset of a record of the scanned
list with positive residual capacity and the unit level drop. -/
theorem scanIdx_spec (level : List Int) (lu : Int) :
    ∀ (l : List Edge) (j0 j : Nat), scanIdx level lu l j0 = some j →
      ∃ k, k < l.length ∧ j = j0 + k ∧
        ((l.getD k dEdge).flow < (l.getD k dEdge).cap ∧
         lu = levelAt level (l.getD k dEdge).to + 1) := by
  intro l
  induction l with
  | nil =>
    intro j0 j h
    simp [scanIdx] at h
  | cons e es ih =>
    intro j0 j h
    rw [scanIdx] at h
    by_cases hc : e.cap > e.flow ∧ lu = levelAt level e.to + 1
    · rw [if_pos hc] at h
      injection h with h
      refine ⟨0, by simp, by omega, ?_⟩
      rw [List.getD_cons_zero]
      exact hc
    · rw [if_neg hc] at h
      obtain ⟨k, hk, hjk, hrec⟩ := ih (j0 + 1) j h
      refine ⟨k + 1, by rw [List.length_cons]; omega, by omega, ?_⟩
      rw [List.getD_cons_succ]
      exact hrec

theorem getD_drop (l : List Edge) (c k : Nat) (h : k < (l.drop c).length) :
    (l.drop c).getD k dEdge = l.getD (c + k) dEdge := by
  have h2 : k < l.length - c := by simpa using h
  have h3 : c + k < l.length := by omega
  rw [List.getD_eq_getElem _ _ h, List.getD_eq_getElem _ _ h3,
    List.getElem_drop]

/-- The scan as the main loop invokes it, described through absolute
indices. -/
theorem scan_state_spec (level : List Int) (lu : Int) (es : List Edge)
    (c0 j : Nat) (h : scanIdx level lu (es.drop c0) c0 = some j) :
    j < es.length ∧
    (nthE es j).flow < (nthE es j).cap ∧
    lu = levelAt level (nthE es j).to + 1 := by
  obtain ⟨k, hk, hjk, h1, h2⟩ := scanIdx_spec level lu (es.drop c0) c0 j h
  have hlen : k < es.length - c0 := by
    rw [List.length_drop] at hk
    exact hk
  have hjlt : j < es.length := by omega
  have hgd : (es.drop c0).getD k dEdge = es.getD j dEdge := by
    rw [getD_drop es c0 k hk, hjk]
  rw [hgd] at h1 h2
  exact ⟨hjlt, h1, h2⟩

/-- Every in-range record of a structurally described graph points at an
in-range node. -/
theorem edge_to_lt (adj : List (List Edge)) (pairs : List PairLoc)
    (h : StructOK adj pairs) (x i : Nat)
    (hx : x < adj.length) (hi : i < (adjAt adj x).length) :
    (nthE (adjAt adj x) i).to < adj.length := by
  have hloc := h.2.2 x hx i hi
  rw [mem_locsOf] at hloc
  obtain ⟨P, hP, hcase⟩ := hloc
  obtain ⟨hPu, hPv, _, _, hfto, _, hrto, _, _⟩ := h.1 P hP
  rcases hcase with ⟨h1, h2⟩ | ⟨h1, h2⟩
  · subst h1
    subst h2
    rw [show nthE (adjAt adj P.u) P.i = fwdE adj P from rfl, hfto]
    exact hPv
  · subst h1
    subst h2
    rw [show nthE (adjAt adj P.v) P.j = revE adj P from rfl, hrto]
    exact hPu

/-! ### The partial augmenting path as a chain of admissible current arcs -/

/-- One link of the stored path: the current arc of `p` is in range, has
positive residual capacity, points at `q`, and drops the level by one. -/
structure LinkOK (adj : List (List Edge)) (level : List Int) (cur : List Nat)
    (p q : Nat) : Prop where
  srcLt : p < adj.length
  curLt : curAt cur p < (adjAt adj p).length
  resPos : (nthE (adjAt adj p) (curAt cur p)).flow <
    (nthE (adjAt adj p) (curAt cur p)).cap
  toEq : (nthE (adjAt adj p) (curAt cur p)).to = q
  levEq : levelAt level p = levelAt level q + 1

/-- Every consecutive pair of the list is a link. -/
def Chain (adj : List (List Edge)) (level : List Int) (cur : List Nat) :
    List Nat → Prop
  | [] => True
  | [_] => True
  | p :: q :: rest => LinkOK adj level cur p q ∧ Chain adj level cur (q :: rest)

theorem chain_tail (adj : List (List Edge)) (level : List Int)
    (cur : List Nat) (a : Nat) (l : List Nat)
    (h : Chain adj level cur (a :: l)) : Chain adj level cur l := by
  cases l with
  | nil => trivial
  | cons b rest => exact h.2

theorem chain_head_lt (adj : List (List Edge)) (level : List Int)
    (cur : List Nat) :
    ∀ (l : List Nat) (q : Nat), Chain adj level cur (q :: l) →
      ∀ x ∈ l, levelAt level x < levelAt level q := by
  intro l
  induction l with
  | nil => intro q _ x hx; cases hx
  | cons b rest ih =>
    intro q h x hx
    have hlev : levelAt level q = levelAt level b + 1 := h.1.levEq
    rcases List.mem_cons.1 hx with hxb | hxr
    · rw [hxb]
      omega
    · have := ih b h.2 x hxr
      omega

/-- The levels strictly decrease along a chain, so its nodes are
pairwise distinct. -/
theorem chain_nodup (adj : List (List Edge)) (level : List Int)
    (cur : List Nat) :
    ∀ l : List Nat, Chain adj level cur l → l.Nodup := by
  intro l
  induction l with
  | nil => intro _; exact List.nodup_nil
  | cons a rest ih =>
    intro h
    rw [List.nodup_cons]
    refine ⟨?_, ih (chain_tail adj level cur a rest h)⟩
    intro hmem
    have := chain_head_lt adj level cur rest a h a hmem
    omega

/-- Every non-final chain node has an admissible in-range current arc. -/
theorem chain_src (adj : List (List Edge)) (level : List Int)
    (cur : List Nat) :
    ∀ (xs : List Nat) (u : Nat), Chain adj level cur (xs ++ [u]) →
      ∀ p ∈ xs, p < adj.length ∧ curAt cur p < (adjAt adj p).length ∧
        (nthE (adjAt adj p) (curAt cur p)).flow <
          (nthE (adjAt adj p) (curAt cur p)).cap := by
  intro xs
  induction xs with
  | nil => intro u _ p hp; cases hp
  | cons a rest ih =>
    intro u h p hp
    have hlink : ∃ b l2, rest ++ [u] = b :: l2 := by
      cases rest with
      | nil => exact ⟨u, [], rfl⟩
      | cons b r2 => exact ⟨b, r2 ++ [u], rfl⟩
    obtain ⟨b, l2, hb⟩ := hlink
    have h2 : Chain adj level cur (a :: b :: l2) := by
      rw [show (a :: rest) ++ [u] = a :: (rest ++ [u]) from rfl, hb] at h
      exact h
    rcases List.mem_cons.1 hp with hpa | hpr
    · rw [hpa]
      exact ⟨h2.1.srcLt, h2.1.curLt, h2.1.resPos⟩
    · refine ih u ?_ p hpr
      rw [hb]
      exact h2.2

/-- Dropping the last node keeps a chain. -/
theorem chain_init (adj : List (List Edge)) (level : List Int)
    (cur : List Nat) :
    ∀ (l : List Nat) (b : Nat), Chain adj level cur (l ++ [b]) →
      Chain adj level cur l := by
  intro l
  induction l with
  | nil => intro b _; trivial
  | cons a l2 ih =>
    intro b h
    cases l2 with
    | nil => trivial
    | cons c l3 =>
      exact ⟨h.1, ih b h.2⟩

/-- Appending one more admissible arc keeps a chain. -/
theorem chain_snoc (adj : List (List Edge)) (level : List Int)
    (cur : List Nat) :
    ∀ (l : List Nat) (u v : Nat), Chain adj level cur (l ++ [u]) →
      LinkOK adj level cur u v →
      Chain adj level cur ((l ++ [u]) ++ [v]) := by
  intro l
  induction l with
  | nil => intro u v _ hlink; exact ⟨hlink, trivial⟩
  | cons a l2 ih =>
    intro u v hch hlink
    cases l2 with
    | nil => exact ⟨hch.1, hlink, trivial⟩
    | cons b l3 => exact ⟨hch.1, ih u v hch.2 hlink⟩

theorem linkOK_set_cur (adj : List (List Edge)) (level : List Int)
    (cur : List Nat) (u : Nat) (nc : Nat) (p q : Nat) (hne : u ≠ p)
    (h : LinkOK adj level cur p q) : LinkOK adj level (cur.set u nc) p q := by
  have hc : curAt (cur.set u nc) p = curAt cur p := getD_set_ne cur u p nc 0 hne
  exact ⟨h.srcLt, by rw [hc]; exact h.curLt, by rw [hc]; exact h.resPos,
    by rw [hc]; exact h.toEq, h.levEq⟩

theorem linkOK_set_both (adj : List (List Edge)) (level : List Int)
    (cur : List Nat) (u : Nat) (nl : Int) (nc : Nat) (p q : Nat)
    (hnp : u ≠ p) (hnq : u ≠ q) (h : LinkOK adj level cur p q) :
    LinkOK adj (level.set u nl) (cur.set u nc) p q := by
  have hc : curAt (cur.set u nc) p = curAt cur p := getD_set_ne cur u p nc 0 hnp
  have hlp : levelAt (level.set u nl) p = levelAt level p :=
    getD_set_ne level u p nl 0 hnp
  have hlq : levelAt (level.set u nl) q = levelAt level q :=
    getD_set_ne level u q nl 0 hnq
  exact ⟨h.srcLt, by rw [hc]; exact h.curLt, by rw [hc]; exact h.resPos,
    by rw [hc]; exact h.toEq, by rw [hlp, hlq]; exact h.levEq⟩

/-- Rewriting the current arc of a node that is no link source keeps a
chain. -/
theorem chain_set_cur (adj : List (List Edge)) (level : List Int)
    (cur : List Nat) (u : Nat) (nc : Nat) :
    ∀ (l : List Nat) (v : Nat), Chain adj level cur (l ++ [v]) → u ∉ l →
      Chain adj level (cur.set u nc) (l ++ [v]) := by
  intro l
  induction l with
  | nil => intro v _ _; trivial
  | cons a l2 ih =>
    intro v h hu
    have hua : u ≠ a := fun he => hu (he ▸ List.mem_cons_self _ _)
    have hu2 : u ∉ l2 := fun hm => hu (List.mem_cons_of_mem _ hm)
    cases l2 with
    | nil => exact ⟨linkOK_set_cur adj level cur u nc a v hua h.1, trivial⟩
    | cons c l3 =>
      exact ⟨linkOK_set_cur adj level cur u nc a c hua h.1, ih v h.2 hu2⟩

/-- Rewriting the level and current arc of a node outside the list keeps a
chain. -/
theorem chain_update (adj : List (List Edge)) (level : List Int)
    (cur : List Nat) (u : Nat) (nl : Int) (nc : Nat) :
    ∀ l : List Nat, u ∉ l → Chain adj level cur l →
      Chain adj (level.set u nl) (cur.set u nc) l := by
  intro l
  induction l with
  | nil => intro _ _; trivial
  | cons a l2 ih =>
    intro hu h
    have hua : u ≠ a := fun he => hu (he ▸ List.mem_cons_self _ _)
    have hu2 : u ∉ l2 := fun hm => hu (List.mem_cons_of_mem _ hm)
    cases l2 with
    | nil => trivial
    | cons c l3 =>
      have huc : u ≠ c := fun he => hu2 (he ▸ List.mem_cons_self _ _)
      exact ⟨linkOK_set_both adj level cur u nl nc a c hua huc h.1,
        ih hu2 h.2⟩

/-! ### The main-loop invariant -/

/-- The state invariant of the main loop: the graph invariant pack, the
current-arc vector of the right length, the current node in range, and the
stored path extended by the current node forming a chain. -/
def StInv (n : Nat) (pairs : List PairLoc) (st : MState) : Prop :=
  GoodGraph n st.adj pairs ∧ st.cur.length = n ∧ st.u < n ∧
  Chain st.adj st.level st.cur (st.path ++ [st.u])

/-- What one loop iteration guarantees: a finished iteration hands the graph
invariant pack to the caller, a continuing one re-establishes the full
state invariant. -/
def StepOK (n : Nat) (pairs : List PairLoc) : StepRes → Prop
  | StepRes.done _ st2 => GoodGraph n st2.adj pairs
  | StepRes.cont st2 => StInv n pairs st2

/-- The `u == t` augment-and-restart preserves the state invariant. -/
theorem augment_inv (n s : Nat) (pairs : List PairLoc) (st : MState)
    (hs : s < n) (h : StInv n pairs st) : StInv n pairs (augment s st) := by
  obtain ⟨⟨hlen, hso, han, hres⟩, hclen, hu, hchain⟩ := h
  have hsrc := chain_src st.adj st.level st.cur st.path st.u hchain
  have hnd : st.path.Nodup :=
    (chain_nodup st.adj st.level st.cur _ hchain).sublist
      (List.sublist_append_left _ _)
  have hfle : ∀ p ∈ st.path, bottleneck st.adj st.cur st.path ≤
      (nthE (adjAt st.adj p) (curAt st.cur p)).cap -
      (nthE (adjAt st.adj p) (curAt st.cur p)).flow := by
    intro p hp
    exact foldl_min_le_mem
      (fun q => (nthE (adjAt st.adj q) (curAt st.cur q)).cap -
        (nthE (adjAt st.adj q) (curAt st.cur q)).flow) st.path INF p hp
  have hf0 : 0 < bottleneck st.adj st.cur st.path := by
    refine foldl_min_pos
      (fun q => (nthE (adjAt st.adj q) (curAt st.cur q)).cap -
        (nthE (adjAt st.adj q) (curAt st.cur q)).flow) st.path INF
      (by norm_num [INF]) ?_
    intro x hx
    have h3 := (hsrc x hx).2.2
    show 0 < (nthE (adjAt st.adj x) (curAt st.cur x)).cap -
      (nthE (adjAt st.adj x) (curAt st.cur x)).flow
    omega
  have hpp := pushPath_preserve pairs st.cur
    (bottleneck st.adj st.cur st.path) (le_of_lt hf0) st.path st.adj
    hso han hres hnd
    (fun p hp => ⟨(hsrc p hp).1, (hsrc p hp).2.1, hfle p hp⟩)
  exact ⟨⟨hpp.2.2.2.trans hlen, hpp.1, hpp.2.1, hpp.2.2.1⟩, hclen, hs,
    trivial⟩

/-- The retreat-and-relabel branch of one loop iteration, written with every
intermediate state inlined (definitionally equal to the corresponding branch
of `step`). -/
def retreatStep (n : Nat) (st : MState) : StepRes :=
  if getG st.gap (levelAt st.level st.u) - 1 = 0 then
    StepRes.done ExitReason.gapZero
      { st with
          cur := st.cur.set st.u (adjAt st.adj st.u).length
          gap := setG st.gap (levelAt st.level st.u)
            (getG st.gap (levelAt st.level st.u) - 1)
          gapAcc := st.gapAcc ++ [levelAt st.level st.u] }
  else
    StepRes.cont
      { st with
          cur := (st.cur.set st.u (adjAt st.adj st.u).length).set st.u 0
          level := st.level.set st.u
            (minLevelOf st.level (adjAt st.adj st.u) n + 1)
          gap := setG (setG st.gap (levelAt st.level st.u)
              (getG st.gap (levelAt st.level st.u) - 1))
            (minLevelOf st.level (adjAt st.adj st.u) n + 1)
            (getG (setG st.gap (levelAt st.level st.u)
                (getG st.gap (levelAt st.level st.u) - 1))
              (minLevelOf st.level (adjAt st.adj st.u) n + 1) + 1)
          gapAcc := (st.gapAcc ++ [levelAt st.level st.u]) ++
            [minLevelOf st.level (adjAt st.adj st.u) n + 1]
          u := st.path.getLastD st.u
          path := st.path.dropLast }

/-- One loop iteration after the `u == t` restart has been applied: the scan
followed by either an advance or a retreat. -/
def stepCore (n : Nat) (st : MState) : StepRes :=
  match scanIdx st.level (levelAt st.level st.u)
      ((adjAt st.adj st.u).drop (curAt st.cur st.u)) (curAt st.cur st.u) with
  | some j =>
    StepRes.cont { st with
      cur := st.cur.set st.u j
      path := st.path ++ [st.u]
      u := (nthE (adjAt st.adj st.u) j).to }
  | none => retreatStep n st

/-- `step` decomposed through `stepCore` and `retreatStep`. -/
theorem step_eq (n s t : Nat) (st : MState) :
    step n s t st =
      if ¬ levelAt st.level s < (n : Int) then StepRes.done ExitReason.levelGE st
      else stepCore n (if st.u = t then augment s st else st) := rfl

/-- The retreat branch preserves the invariant. -/
theorem retreat_preserve (n : Nat) (pairs : List PairLoc) (st : MState)
    (h : StInv n pairs st) : StepOK n pairs (retreatStep n st) := by
  obtain ⟨⟨hlen, hso, han, hres⟩, hclen, hu, hchain⟩ := h
  have hnd := chain_nodup st.adj st.level st.cur _ hchain
  have hupath : st.u ∉ st.path := by
    intro hmem
    rw [List.nodup_append] at hnd
    exact hnd.2.2 hmem (List.mem_singleton.2 rfl)
  unfold retreatStep
  by_cases hg : getG st.gap (levelAt st.level st.u) - 1 = 0
  · rw [if_pos hg]
    exact ⟨hlen, hso, han, hres⟩
  · rw [if_neg hg]
    refine ⟨⟨hlen, hso, han, hres⟩, ?_, ?_, ?_⟩
    · show ((st.cur.set st.u (adjAt st.adj st.u).length).set st.u 0).length = n
      rw [List.length_set, List.length_set]
      exact hclen
    · show st.path.getLastD st.u < n
      rcases List.eq_nil_or_concat st.path with hnil | ⟨l1, b, hconcat⟩
      · rw [hnil]
        simpa using hu
      · rw [List.concat_eq_append] at hconcat
        rw [hconcat, List.getLastD_concat]
        have hb : b ∈ st.path := by
          rw [hconcat]
          exact List.mem_append_right _ (List.mem_singleton.2 rfl)
        have := chain_src st.adj st.level st.cur st.path st.u hchain b hb
        rw [← hlen]
        exact this.1
    · rcases List.eq_nil_or_concat st.path with hnil | ⟨l1, b, hconcat⟩
      · show Chain _ _ _ (st.path.dropLast ++ [st.path.getLastD st.u])
        rw [hnil]
        trivial
      · rw [List.concat_eq_append] at hconcat
        show Chain st.adj
          (st.level.set st.u (minLevelOf st.level (adjAt st.adj st.u) n + 1))
          ((st.cur.set st.u (adjAt st.adj st.u).length).set st.u 0)
          (st.path.dropLast ++ [st.path.getLastD st.u])
        rw [hconcat, List.dropLast_concat, List.getLastD_concat,
          List.set_set]
        have hch1 : Chain st.adj st.level st.cur (l1 ++ [b]) := by
          rw [hconcat] at hchain
          exact chain_init st.adj st.level st.cur (l1 ++ [b]) st.u hchain
        refine chain_update st.adj st.level st.cur st.u _ 0 (l1 ++ [b])
          ?_ hch1
        rw [hconcat] at hupath
        exact hupath

/-- One post-restart iteration preserves the invariant. -/
theorem stepCore_preserve (n : Nat) (pairs : List PairLoc) (st : MState)
    (h : StInv n pairs st) : StepOK n pairs (stepCore n st) := by
  obtain ⟨⟨hlen, hso, han, hres⟩, hclen, hu, hchain⟩ := h
  unfold stepCore
  rcases hscan : scanIdx st.level (levelAt st.level st.u)
      ((adjAt st.adj st.u).drop (curAt st.cur st.u))
      (curAt st.cur st.u) with _ | j
  · exact retreat_preserve n pairs st ⟨⟨hlen, hso, han, hres⟩, hclen, hu,
      hchain⟩
  · show StInv n pairs { st with
      cur := st.cur.set st.u j
      path := st.path ++ [st.u]
      u := (nthE (adjAt st.adj st.u) j).to }
    obtain ⟨hjlt, hresid, hlveq⟩ := scan_state_spec st.level
      (levelAt st.level st.u) (adjAt st.adj st.u) (curAt st.cur st.u) j hscan
    have hulen : st.u < st.adj.length := by
      rw [hlen]
      exact hu
    have hto := edge_to_lt st.adj pairs hso st.u j hulen hjlt
    have hnd := chain_nodup st.adj st.level st.cur _ hchain
    have hupath : st.u ∉ st.path := by
      intro hmem
      rw [List.nodup_append] at hnd
      exact hnd.2.2 hmem (List.mem_singleton.2 rfl)
    refine ⟨⟨hlen, hso, han, hres⟩, ?_, ?_, ?_⟩
    · show (st.cur.set st.u j).length = n
      rw [List.length_set]
      exact hclen
    · show (nthE (adjAt st.adj st.u) j).to < n
      rw [← hlen]
      exact hto
    · show Chain st.adj st.level (st.cur.set st.u j)
        ((st.path ++ [st.u]) ++ [(nthE (adjAt st.adj st.u) j).to])
      refine chain_snoc st.adj st.level (st.cur.set st.u j) st.path st.u _
        ?_ ?_
      · exact chain_set_cur st.adj st.level st.cur st.u j st.path st.u
          hchain hupath
      · have hcu : curAt (st.cur.set st.u j) st.u = j :=
          getD_set_self st.cur st.u j 0 (by rw [hclen]; exact hu)
        refine ⟨hulen, ?_, ?_, ?_, ?_⟩
        · rw [hcu]
          exact hjlt
        · rw [hcu]
          exact hresid
        · rw [hcu]
        · exact hlveq

/-- One full loop iteration preserves the invariant. -/
theorem step_preserve (n s t : Nat) (pairs : List PairLoc) (st : MState)
    (hs : s < n) (h : StInv n pairs st) : StepOK n pairs (step n s t st) := by
  rw [step_eq]
  by_cases hlev : ¬ levelAt st.level s < (n : Int)
  · rw [if_pos hlev]
    exact h.1
  · rw [if_neg hlev]
    apply stepCore_preserve
    by_cases ht : st.u = t
    · rw [if_pos ht]
      exact augment_inv n s pairs st hs h
    · rw [if_neg ht]
      exact h

/-- A terminating main loop started in an invariant state ends with the
graph invariant pack. -/
theorem isapLoop_good (n s t : Nat) (pairs : List PairLoc) (hs : s < n) :
    ∀ (fuel : Nat) (st : MState), StInv n pairs st →
      ∀ (r : ExitReason) (st2 : MState),
        isapLoop n s t fuel st = some (r, st2) →
        GoodGraph n st2.adj pairs := by
  intro fuel
  induction fuel with
  | zero =>
    intro st _ r st2 heq
    exact Option.noConfusion heq
  | succ fuel ih =>
    intro st hinv r st2 heq
    have hstep := step_preserve n s t pairs st hs hinv
    rw [isapLoop] at heq
    cases hres : step n s t st with
    | done r2 st3 =>
      rw [hres] at heq hstep
      have h1 : some (r2, st3) = some (r, st2) := heq
      injection h1 with h2
      injection h2 with h3 h4
      rw [← h4]
      exact hstep
    | cont st3 =>
      rw [hres] at heq hstep
      have h1 : isapLoop n s t fuel st3 = some (r, st2) := heq
      exact ih st3 hstep r st2 h1

/-- A terminating `isap` run on a good graph ends with the graph invariant
pack. -/
theorem isapRun_good (n : Nat) (adj : List (List Edge))
    (pairs : List PairLoc) (s t fuel : Nat)
    (hg : GoodGraph n adj pairs) (hs : s < n)
    (r : ExitReason) (st2 : MState)
    (heq : isapRun adj s t fuel = some (r, st2)) :
    GoodGraph n st2.adj pairs := by
  simp only [isapRun] at heq
  by_cases hl : levelAt (bfsRun adj t).level s = -1
  · rw [if_pos hl] at heq
    injection heq with h2
    injection h2 with h3 h4
    rw [← h4]
    exact hg
  · rw [if_neg hl] at heq
    have hinv : StInv n pairs (initState adj s t) := by
      refine ⟨hg, ?_, hs, trivial⟩
      show (List.replicate adj.length 0).length = n
      rw [List.length_replicate]
      exact hg.1
    rw [hg.1] at heq
    exact isapLoop_good n s t pairs hs fuel (initState adj s t) hinv r st2
      heq

/-! ### Concrete instances -/

/-- The edge list of the first test graph of `isap_test.cc`. -/
def g1Edges : List (Nat × Nat × Int) := [(0, 1, 10), (0, 2, 2), (1, 2, 6), (1, 3, 8), (2, 3, 10)]

/-- The edge list of the second test graph of `isap_test.cc`. -/
def g2Edges : List (Nat × Nat × Int) :=
  [(0, 1, 16), (0, 2, 13), (1, 2, 10), (1, 3, 12), (2, 1, 4), (2, 4, 14), (3, 2, 9), (3, 5, 20), (4, 3, 7), (4, 5, 4)]

/-- The edge list of the third (disconnected) test graph of `isap_test.cc`. -/
def g3Edges : List (Nat × Nat × Int) := [(0, 1, 10)]

/-- A 7-node graph on which the gap heuristic fires prematurely: node `2` has
a residual edge to the dead-end node `3` (unreachable from the sink `0`), is
down-relabelled to level `-1 + 1 = 0`, after which the lone level of the
source `4` empties and the computation stops at flow `1` although the maximum
flow is `2`. -/
def gxEdges : List (Nat × Nat × Int) :=
  [(2, 3, 1), (2, 1, 1), (1, 0, 1), (4, 2, 3), (2, 5, 1), (5, 6, 1), (6, 0, 1)]

/-- The graph built from `gxEdges`. -/
def gx : List (List Edge) := buildAdj 7 gxEdges

/-- An explicit flow of value `2` on `gxEdges` from `4` to `0`. -/
def gxFlow : List Int := [0, 1, 1, 2, 1, 1, 1]

/-- A 4-node graph on which the relabelling step assigns the source level
`n + 1 = 5` and accesses `gap[5]`, outside the `gap` array of size `4`. -/
def g4Edges : List (Nat × Nat × Int) := [(0, 1, 1), (1, 3, 1), (2, 1, 1)]

/-- A bounded-edge instance (`n = 7`, `s = 5`, `t = 6`) that admits a feasible
flow but on which `has_feasible_flow` answers `false`: its auxiliary graph
triggers the same premature gap-heuristic exit as `gxEdges`. -/
def epEdges : List OriginalEdge :=
  [⟨0, 1, 0, 1⟩, ⟨0, 2, 0, 1⟩, ⟨0, 3, 0, 1⟩, ⟨3, 4, 0, 1⟩, ⟨2, 0, 1, 1⟩, ⟨4, 0, 1, 1⟩]

/-- A feasible assignment for `epEdges`. -/
def epFlow : List Int := [0, 1, 1, 1, 1, 1]

/-- `epEdges` with the lower bound of edge `2` raised from `0` to `1`; on this
instance `has_feasible_flow` answers `true`. -/
def erEdges : List OriginalEdge :=
  [⟨0, 1, 0, 1⟩, ⟨0, 2, 0, 1⟩, ⟨0, 3, 1, 1⟩, ⟨3, 4, 0, 1⟩, ⟨2, 0, 1, 1⟩, ⟨4, 0, 1, 1⟩]

/-- A 3-node graph with node `2` unreachable from the sink `1`, used to
observe the `-1` label during the main loop. -/
def g9Edges : List (Nat × Nat × Int) := [(0, 1, 5), (0, 2, 5)]

/-- The `lower > upper` instance from `test_has_feasible_flow` (test case 2). -/
def fe2Edges : List OriginalEdge := [⟨0, 1, 5, 3⟩, ⟨1, 2, 1, 4⟩]

/-! ### Basic lemmas -/

/-- If a set of nodes contains `s`, is closed under residual steps, and
misses `t`, then `t` is not residually reachable from `s`. -/
theorem notResReach_of_closed (adj : List (List Edge)) (S : List Nat)
    (s t : Nat) (hs : s ∈ S) (ht : t ∉ S)
    (hcl : ∀ x ∈ S, ∀ e ∈ adjAt adj x, e.flow < e.cap → e.to ∈ S) :
    ¬ ResReach adj s t := by
  intro h
  have hmem : ∀ y, ResReach adj s y → y ∈ S := by
    intro y hy
    induction hy with
    | refl => exact hs
    | tail _h1 h2 ih =>
      obtain ⟨e, he, hto, hres⟩ := h2
      exact hto ▸ hcl _ ih e he hres
  exact ht (hmem t h)

/-! ### Soundness of the BFS labelling -/

/-- Invariant of the BFS: levels have the right length, every label is `-1`
or non-negative, every labelled valid node residually reaches `t`, and every
queued node is a labelled valid node. -/
def BfsInv (adj : List (List Edge)) (t : Nat) (st : BfsSt) : Prop :=
  st.level.length = adj.length ∧
  (∀ v, 0 ≤ levelAt st.level v ∨ levelAt st.level v = -1) ∧
  (∀ v, v < adj.length → levelAt st.level v ≠ -1 → ResReach adj v t) ∧
  (∀ q ∈ st.queue, q < adj.length ∧ levelAt st.level q ≠ -1)

/-- Processing one dequeued labelled node preserves the BFS invariant. -/
theorem bfsVisit_inv (adj : List (List Edge)) (t u : Nat)
    (hsym : SymmStruct adj) (hu : u < adj.length) (st : BfsSt)
    (hinv : BfsInv adj t st) (hul : levelAt st.level u ≠ -1) :
    BfsInv adj t (bfsVisit adj u st) := by
  have main :
      BfsInv adj t (bfsVisit adj u st) ∧
        levelAt (bfsVisit adj u st).level u ≠ -1 := by
    unfold bfsVisit
    refine foldl_invariant
      (fun s => BfsInv adj t s ∧ levelAt s.level u ≠ -1) _
      (adjAt adj u) st ⟨hinv, hul⟩ ?_
    intro e he s hs
    obtain ⟨⟨hlen, hsgn, hreach, hq⟩, hsul⟩ := hs
    dsimp only
    split
    case isFalse => exact ⟨⟨hlen, hsgn, hreach, hq⟩, hsul⟩
    case isTrue hc =>
      obtain ⟨hminus, hres⟩ := hc
      obtain ⟨hto, hrev, hback⟩ := hsym u hu e he
      have hwlt : e.to < s.level.length := hlen ▸ hto
      have hne_u : e.to ≠ u := fun h => hsul (h ▸ hminus)
      have husgn : 0 ≤ levelAt s.level u :=
        (hsgn u).resolve_right hsul
      have hnewlab : levelAt s.level u + 1 ≠ -1 := by omega
      have hself : levelAt (s.level.set e.to (levelAt s.level u + 1))
          e.to = levelAt s.level u + 1 :=
        getD_set_self _ _ _ _ hwlt
      have hother : ∀ v, v ≠ e.to →
          levelAt (s.level.set e.to (levelAt s.level u + 1)) v =
            levelAt s.level v := by
        intro v hv
        exact getD_set_ne _ _ _ _ _ (fun h => hv h.symm)
      have hstep : ResStep adj e.to u := by
        refine ⟨nthE (adjAt adj e.to) e.rev, ?_, hback, hres⟩
        rw [nthE, List.getD_eq_getElem _ _ hrev]
        exact List.getElem_mem hrev
      have hreach_w : ResReach adj e.to t :=
        Relation.ReflTransGen.head hstep (hreach u hu hsul)
      refine ⟨⟨?_, ?_, ?_, ?_⟩, ?_⟩
      · simpa using hlen
      · intro v
        by_cases hv : v = e.to
        · subst hv; rw [hself]; left; omega
        · rw [hother v hv]; exact hsgn v
      · intro v hvlt hvlab
        by_cases hv : v = e.to
        · subst hv; exact hreach_w
        · rw [hother v hv] at hvlab
          exact hreach v hvlt hvlab
      · intro q hqmem
        rcases List.mem_append.1 hqmem with hq1 | hq2
        · obtain ⟨hqlt, hqlab⟩ := hq q hq1
          have hqne : q ≠ e.to := fun h => hqlab (h ▸ hminus)
          exact ⟨hqlt, by rw [hother q hqne]; exact hqlab⟩
        · have hq2 : q = e.to := by simpa using hq2
          subst hq2
          exact ⟨hto, by rw [hself]; exact hnewlab⟩
      · rw [hother u (fun h => hne_u h.symm)]; exact hsul
  exact main.1

/-- The whole BFS queue loop preserves the invariant. -/
theorem bfsLoop_inv (adj : List (List Edge)) (t : Nat)
    (hsym : SymmStruct adj) :
    ∀ (fuel : Nat) (st : BfsSt), BfsInv adj t st →
      BfsInv adj t (bfsLoop adj fuel st)
  | 0, _, h => h
  | Nat.succ fuel, st, h => by
    unfold bfsLoop
    match hq : st.queue with
    | [] => exact h
    | u :: rest =>
      obtain ⟨hu, hul⟩ := h.2.2.2 u (by rw [hq]; exact List.mem_cons_self u rest)
      have hrest : BfsInv adj t { st with queue := rest } := by
        refine ⟨h.1, h.2.1, h.2.2.1, ?_⟩
        intro q hqmem
        exact h.2.2.2 q (by rw [hq]; exact List.mem_cons_of_mem u hqmem)
      exact bfsLoop_inv adj t hsym fuel _
        (bfsVisit_inv adj t u hsym hu _ hrest hul)

/-- The state after `Isap::bfs(t)` satisfies the invariant. -/
theorem bfsRun_inv (adj : List (List Edge)) (t : Nat)
    (hsym : SymmStruct adj) (ht : t < adj.length) :
    BfsInv adj t (bfsRun adj t) := by
  refine bfsLoop_inv adj t hsym adj.length _ ⟨?_, ?_, ?_, ?_⟩
  · simp
  · intro v
    by_cases hv : v = t
    · subst hv
      rw [levelAt, getD_set_self _ _ _ _ (by simpa using ht)]
      left; omega
    · by_cases hvlt : v < adj.length
      · rw [levelAt, getD_set_ne _ _ _ _ _ (fun h => hv h.symm),
          getD_replicate_lt _ _ _ _ hvlt]
        right; rfl
      · rw [levelAt, List.getD_eq_default]
        · left; omega
        · simpa using Nat.le_of_not_lt hvlt
  · intro v hvlt hvlab
    by_cases hv : v = t
    · subst hv; exact Relation.ReflTransGen.refl
    · exfalso
      apply hvlab
      rw [levelAt, getD_set_ne _ _ _ _ _ (fun h => hv h.symm),
        getD_replicate_lt _ _ _ _ hvlt]
  · intro q hqmem
    have hq : q = t := by simpa using hqmem
    subst hq
    refine ⟨ht, ?_⟩
    rw [levelAt, getD_set_self _ _ _ _ (by simpa using ht)]
    omega

/-- BFS soundness: a node labelled by `Isap::bfs(t)` residually reaches
`t`. -/
theorem bfs_sound (adj : List (List Edge)) (t : Nat)
    (hsym : SymmStruct adj) (ht : t < adj.length) (v : Nat)
    (hv : v < adj.length)
    (hlab : levelAt (bfsRun adj t).level v ≠ -1) : ResReach adj v t :=
  (bfsRun_inv adj t hsym ht).2.2.1 v hv hlab

/-- The three end-to-end expectations of `isap_test.cc` hold of the model. -/
theorem isap_test_values :
    isapFlow (buildAdj 4 g1Edges) 0 3 100 = some 12 ∧
    isapFlow (buildAdj 6 g2Edges) 0 5 300 = some 23 ∧
    isapFlow (buildAdj 3 g3Edges) 0 2 100 = some 0 := by
  refine ⟨by decide, by decide, by decide⟩

/-- The four expectations of `test_has_feasible_flow` hold of the model. -/
theorem feasible_test_values :
    hasFeasibleFlow 4 0 3 [⟨0, 1, 5, 10⟩, ⟨0, 2, 2, 8⟩, ⟨1, 3, 3, 6⟩, ⟨2, 3, 4, 9⟩] 300 = some true ∧
    hasFeasibleFlow 3 0 2 fe2Edges 300 = some false ∧
    hasFeasibleFlow 4 0 3 [⟨0, 1, 6, 10⟩, ⟨0, 2, 4, 8⟩, ⟨1, 3, 1, 3⟩, ⟨2, 3, 2, 3⟩] 300 = some false ∧
    hasFeasibleFlow 4 0 3 [⟨0, 1, 2, 5⟩, ⟨0, 2, 1, 3⟩, ⟨1, 3, 1, 3⟩, ⟨2, 3, 2, 4⟩] 300 = some true := by
  refine ⟨by decide, by decide, by decide, by decide⟩

/-- C5: if the sink `t` is not residually reachable from the source `s` in
the current graph, `maxFlow(s, t)` returns `0` via the early `level[s] == -1`
return and leaves every edge's flow unchanged. -/
theorem disconnected_returns_zero_unchanged (adj : List (List Edge))
    (s t fuel : Nat) (hsym : SymmStruct adj) (hs : s < adj.length)
    (ht : t < adj.length) (h : ¬ ResReach adj s t) :
    isapFlow adj s t fuel = some 0 ∧
    (isapRun adj s t fuel).map (fun r => r.2.adj) = some adj := by
  have hlev : levelAt (bfsRun adj t).level s = -1 := by
    by_contra hne
    exact h (bfs_sound adj t hsym ht s hs hne)
  have hrun : isapRun adj s t fuel = some (.noPath,
      ⟨adj, (bfsRun adj t).level, (bfsRun adj t).gap, [], [], s, 0, []⟩) := by
    unfold isapRun
    rw [if_pos hlev]
  rw [isapFlow, hrun]
  exact ⟨rfl, rfl⟩

/-- Witness for C5: the third test case of `isap_test.cc` (sink `2` is
unreachable from `0` in the graph with single edge `(0, 1, 10)`). -/
theorem disconnected_returns_zero_unchanged_w :
    (SymmStruct (buildAdj 3 g3Edges) ∧ 0 < 3 ∧ 2 < 3 ∧
      ¬ ResReach (buildAdj 3 g3Edges) 0 2) ∧
    isapFlow (buildAdj 3 g3Edges) 0 2 100 = some 0 ∧
    (isapRun (buildAdj 3 g3Edges) 0 2 100).map (fun r => r.2.adj) =
      some (buildAdj 3 g3Edges) := by
  have hsym : SymmStruct (buildAdj 3 g3Edges) := by decide
  have hnr : ¬ ResReach (buildAdj 3 g3Edges) 0 2 :=
    notResReach_of_closed _ [0, 1] 0 2 (by decide) (by decide) (by decide)
  exact ⟨⟨hsym, by decide, by decide, hnr⟩,
    disconnected_returns_zero_unchanged (buildAdj 3 g3Edges) 0 2 100 hsym
      (by decide) (by decide) hnr⟩

/-- C6: if some edge has `lower > upper`, `has_feasible_flow` returns
`false` (the first loop of the function returns before anything else is
computed). -/
theorem lower_gt_upper_returns_false (n s t : Nat) (es : List OriginalEdge)
    (fuel : Nat) (h : ∃ e ∈ es, e.upper < e.lower) :
    hasFeasibleFlow n s t es fuel = some false := by
  have hany : es.any (fun e => e.lower > e.upper) = true := by
    rw [List.any_eq_true]
    obtain ⟨e, he, hlt⟩ := h
    exact ⟨e, he, decide_eq_true hlt⟩
  unfold hasFeasibleFlow
  rw [if_pos hany]

/-- Witness for C6: test case 2 of `test_has_feasible_flow`. -/
theorem lower_gt_upper_returns_false_w :
    (∃ e ∈ fe2Edges, e.upper < e.lower) ∧
    hasFeasibleFlow 3 0 2 fe2Edges 300 = some false :=
  ⟨⟨⟨0, 1, 5, 3⟩, by decide, by decide⟩,
    lower_gt_upper_returns_false 3 0 2 fe2Edges 300
      ⟨⟨0, 1, 5, 3⟩, by decide, by decide⟩⟩

/-- C9 (amended): a node from which the sink is unreachable in the residual
graph at labelling time carries the distance label `-1` after the labelling
phase (not `n`); the admissibility and relabelling steps of the main loop
then use this stored `-1` value. -/
theorem unreachable_carries_minus_one (adj : List (List Edge)) (t v : Nat)
    (hsym : SymmStruct adj) (ht : t < adj.length) (hv : v < adj.length)
    (h : ¬ ResReach adj v t) : levelAt (bfsRun adj t).level v = -1 := by
  by_contra hne
  exact h (bfs_sound adj t hsym ht v hv hne)

/-- Witness for C9 (amended): node `2` of the `g9Edges` graph with sink `1`
is unreachable and is labelled `-1`. -/
theorem unreachable_carries_minus_one_w :
    (SymmStruct (buildAdj 3 g9Edges) ∧ 1 < 3 ∧ 2 < 3 ∧
      ¬ ResReach (buildAdj 3 g9Edges) 2 1) ∧
    levelAt (bfsRun (buildAdj 3 g9Edges) 1).level 2 = -1 := by
  have hsym : SymmStruct (buildAdj 3 g9Edges) := by decide
  have hnr : ¬ ResReach (buildAdj 3 g9Edges) 2 1 :=
    notResReach_of_closed _ [2] 2 1 (by decide) (by decide) (by decide)
  exact ⟨⟨hsym, by decide, by decide, hnr⟩,
    unreachable_carries_minus_one (buildAdj 3 g9Edges) 1 2 hsym
      (by decide) (by decide) hnr⟩

/-! ### Claim theorems: concrete counterexamples -/

/-- C1: on the graph of `gxEdges`, `maxFlow(4, 0)` terminates (via the gap
heuristic, with every `gap` access in range, so the C++ behaviour is defined)
and returns `1`, yet `gxFlow` is a capacity-respecting, conserving flow from
`4` to `0` of value `2`; hence the returned value is not the maximum over all
flows, contradicting the claim. -/
theorem isap_returns_nonmaximal_on_gx :
    isapFlow gx 4 0 100 = some 1 ∧
    (isapRun gx 4 0 100).map
      (fun r => r.2.gapAcc.all (fun i => 0 ≤ i ∧ i < 7)) = some true ∧
    IsFlow 7 gxEdges 4 0 gxFlow ∧ flowValue gxEdges gxFlow 4 = 2 ∧
    ¬ (1 : Int) = 2 := by
  refine ⟨by decide, by decide, ⟨by decide, by decide, by decide⟩, by decide, by decide⟩

/-- C7: after the `maxFlow(4, 0)` computation on the graph of `gxEdges` has
returned, running it again immediately on the mutated graph returns `1`, not
`0`: an augmenting path was left behind. -/
theorem isap_rerun_nonzero_on_gx :
    (isapRun gx 4 0 100).bind (fun r => isapFlow r.2.adj 4 0 100) = some 1 ∧
    ¬ (1 : Int) = 0 := by
  refine ⟨by decide, by decide⟩

/-- C2: the bounded instance `epEdges` (with `n = 7`, `s = 5`, `t = 6`)
admits the feasible assignment `epFlow`, yet `has_feasible_flow` returns
`false` on it, so the claimed equivalence fails. -/
theorem feasible_flow_rejected_on_ep :
    hasFeasibleFlow 7 5 6 epEdges 100 = some false ∧
    BoundedFeasible 7 5 6 epEdges := by
  refine ⟨by decide, ⟨epFlow, by decide, by decide, by decide⟩⟩

/-- C8: `has_feasible_flow` answers `true` on `erEdges` but `false` on
`epEdges`, although `epEdges` is `erEdges` with the lower bound of exactly
one edge (index `2`) decreased from `1` to `0` (upper bound and all other
edges unchanged, new lower bound non-negative). -/
theorem feasibility_not_monotone :
    hasFeasibleFlow 7 5 6 erEdges 100 = some true ∧
    epEdges = erEdges.set 2 ⟨0, 3, 0, 1⟩ ∧
    (epEdges.getD 2 ⟨0, 0, 0, 0⟩).upper = (erEdges.getD 2 ⟨0, 0, 0, 0⟩).upper ∧
    (epEdges.getD 2 ⟨0, 0, 0, 0⟩).lower < (erEdges.getD 2 ⟨0, 0, 0, 0⟩).lower ∧
    0 ≤ (epEdges.getD 2 ⟨0, 0, 0, 0⟩).lower ∧
    hasFeasibleFlow 7 5 6 epEdges 100 = some false := by
  refine ⟨by decide, by decide, by decide, by decide, by decide, by decide⟩

/-- C10: on the 4-node graph of `g4Edges`, `maxFlow(0, 3)` runs the main loop
and its relabelling step accesses the `gap` array at index `5 = n + 1`, which
is not in `[0, 4)`: in the C++ this is an out-of-bounds `vector` write. -/
theorem gap_access_out_of_range_on_g4 :
    (isapRun (buildAdj 4 g4Edges) 0 3 100).map (fun r => r.2.gapAcc) =
      some [2, 5] ∧
    ¬ ((5 : Int) < 4) := by
  refine ⟨by decide, by decide⟩

/-- C9 (counterexample): on the graph of `g9Edges` with `maxFlow(0, 1)`, node
`2` cannot reach the sink `1` in the residual graph at labelling time, yet at
the start of the main loop (which does run: `level[0] = 1 < 3`) it carries
the label `-1`, not `n = 3`; moreover in the `gxEdges` run the relabelling
step treats such a `-1` node as level `-1` (node `2` is relabelled to
`-1 + 1 = 0` at iteration 5 while its dead neighbour `3` carries `-1`), not
as level `n`. -/
theorem unreachable_labels_are_minus_one_not_n :
    (¬ ResReach (buildAdj 3 g9Edges) 2 1) ∧
    levelAt (initState (buildAdj 3 g9Edges) 0 1).level 2 = -1 ∧
    levelAt (initState (buildAdj 3 g9Edges) 0 1).level 0 < 3 ∧
    ¬ (-1 : Int) = 3 ∧
    (¬ ResReach gx 3 0) ∧
    levelAt (iterSteps 7 4 0 4 (initState gx 4 0)).level 3 = -1 ∧
    levelAt (iterSteps 7 4 0 4 (initState gx 4 0)).level 2 = 2 ∧
    levelAt (iterSteps 7 4 0 5 (initState gx 4 0)).level 2 = 0 := by
  refine ⟨notResReach_of_closed _ [2] 2 1 (by decide) (by decide) (by decide),
    by decide, by decide, by decide,
    notResReach_of_closed _ [3] 3 0 (by decide) (by decide) (by decide),
    by decide, by decide, by decide⟩

/-- C4: on every graph built by valid `add_edge` calls, paired-flow
antisymmetry `forward.flow = -reverse.flow` holds after construction (and
after every intermediate `add_edge`, i.e. for every split of the call list),
and whenever a `maxFlow` run terminates it again holds in the final graph,
where moreover every logical edge satisfies `0 ≤ flow ≤ capacity`. -/
theorem paired_flow_invariant (n : Nat) (es : List (Nat × Nat × Int))
    (hval : ValidEdges n es) (s t fuel : Nat) (hs : s < n)
    (r : ExitReason) (st2 : MState)
    (hrun : isapRun (buildAdj n es) s t fuel = some (r, st2)) :
    (∀ es1 es2, es = es1 ++ es2 →
      Antisym (buildAdj n es1) (pairsOf n es1)) ∧
    Antisym st2.adj (pairsOf n es) ∧
    ∀ P ∈ pairsOf n es, 0 ≤ (fwdE st2.adj P).flow ∧
      (fwdE st2.adj P).flow ≤ P.cap := by
  have hgood := build_good n es hval
  have hfinal := isapRun_good n (buildAdj n es) (pairsOf n es) s t fuel
    hgood hs r st2 hrun
  obtain ⟨hlen2, hso2, han2, hres2⟩ := hfinal
  refine ⟨?_, han2, ?_⟩
  · intro es1 es2 hsplit
    have hval1 : ValidEdges n es1 := fun e he =>
      hval e (by rw [hsplit]; exact List.mem_append_left _ he)
    exact (build_good n es1 hval1).2.2.1
  · intro P hP
    obtain ⟨hPu, hPv, hPi, hPj, hfto, hfcap, hrto, hrcap, hptr⟩ :=
      hso2.1 P hP
    have hanti := han2 P hP
    have hrevle : (revE st2.adj P).flow ≤ (revE st2.adj P).cap := by
      apply hres2 P.v hPv
      rw [revE, nthE, List.getD_eq_getElem _ _ hPj]
      exact List.getElem_mem hPj
    have hfwdle : (fwdE st2.adj P).flow ≤ (fwdE st2.adj P).cap := by
      apply hres2 P.u hPu
      rw [fwdE, nthE, List.getD_eq_getElem _ _ hPi]
      exact List.getElem_mem hPi
    rw [hrcap] at hrevle
    rw [hfcap] at hfwdle
    exact ⟨by omega, hfwdle⟩

/-- The final state of the terminating run `isap(0, 1)` on the two-node
graph with the single call `add_edge(0, 1, 5)`. -/
def c4W : MState :=
  { adj := [[⟨1, 5, 5, 0⟩], [⟨0, 0, -5, 0⟩]], level := [1, 0], gap := [1, 0],
    cur := [1, 0], path := [], u := 0, flow := 5, gapAcc := [1] }

/-- Witness for C4 at the two-node single-edge instance. -/
theorem paired_flow_invariant_w :
    ValidEdges 2 [(0, 1, 5)] ∧ 0 < 2 ∧
    isapRun (buildAdj 2 [(0, 1, 5)]) 0 1 10 =
      some (ExitReason.gapZero, c4W) ∧
    ((∀ es1 es2, [((0 : Nat), (1 : Nat), (5 : Int))] = es1 ++ es2 →
        Antisym (buildAdj 2 es1) (pairsOf 2 es1)) ∧
      Antisym c4W.adj (pairsOf 2 [(0, 1, 5)]) ∧
      ∀ P ∈ pairsOf 2 [(0, 1, 5)], 0 ≤ (fwdE c4W.adj P).flow ∧
        (fwdE c4W.adj P).flow ≤ P.cap) :=
  ⟨by decide, by decide, rfl,
    paired_flow_invariant 2 [(0, 1, 5)] (by decide) 0 1 10 (by decide)
      ExitReason.gapZero c4W rfl⟩

end IsapModel
